import Mathlib

/-
Verification development for the DOM extraction core of the `mcp-servers`
playwright server (`src/playwright/index.ts`).

The embedding models the in-page extraction script run by `extractDom`:
  * `uniqueIdNext`      — the `uniqueId` counter closure (`id++; id.toString()`),
  * `cleanupDom`        — the per-node classification / attribute cleanup,
  * `scanKids` / `processRevList` / `processNode` / `walkKids`
                        — the explicit-stack TreeWalker loop,
  * `extractTree` / `extractDom` / `handleExtractDom`
                        — the whole `playwright_extract_dom` call.

DOM nodes are modelled by `DomNode`: a text node carries its `textContent`;
an element carries its `tagName`, attribute list (in DOM enumeration order),
the `instanceof` classification used by the script (`DomClass`), its `value`
property (`Option JsVal`, absent when `typeof element.value` is `undefined`),
its `assignedSlot` (as a Boolean: whether `element.assignedSlot` is non-null),
its shadow root children, the nodes assigned to it when it is a slot, and its
light-DOM children.  The TreeWalker is created with
`NodeFilter.SHOW_ELEMENT | NodeFilter.SHOW_TEXT`, so the walker's child
sequence of an element is exactly its list of element/text children, which is
what `kids` holds.
-/

namespace MCPDom

/-- Whitespace test used to model the JavaScript `\s` class and `trim`. -/
def jsWhitespace (c : Char) : Bool := c.isWhitespace

/-- One pass of `replace(/\s+/g, ' ')`: the flag records whether the previous
character was part of a whitespace run already replaced by a space. -/
def collapseGo : Bool → List Char → List Char
  | _, [] => []
  | inRun, c :: rest =>
    if jsWhitespace c then
      if inRun then collapseGo true rest else ' ' :: collapseGo true rest
    else c :: collapseGo false rest

/-- Model of `s.replace(/\s+/g, ' ')`. -/
def collapseWs (s : String) : String := String.mk (collapseGo false s.toList)

/-- Drop leading and trailing whitespace characters from a character list. -/
def trimChars (l : List Char) : List Char :=
  ((l.dropWhile jsWhitespace).reverse.dropWhile jsWhitespace).reverse

/-- Model of JavaScript `String.prototype.trim`. -/
def jsTrim (s : String) : String := String.mk (trimChars s.toList)

/-- Model of `s.replace(/\s+/g, ' ').trim()`, the normalization applied to
text-node content. -/
def normalizeWs (s : String) : String := jsTrim (collapseWs s)

/-- The decimal digit character for `d < 10`. -/
def digitChar (d : Nat) : Char := Char.ofNat (48 + d)

/-- Fueled most-significant-first decimal digits of a natural number. -/
def natDigsAux : Nat → Nat → List Char
  | 0, _ => []
  | fuel + 1, n =>
    if n < 10 then [digitChar n]
    else natDigsAux fuel (n / 10) ++ [digitChar (n % 10)]

/-- Decimal rendering of a natural number, modelling JavaScript
`Number.prototype.toString` on the counter values. -/
def decimalStr (n : Nat) : String := String.mk (natDigsAux (n + 1) n)

/-- One call of the closure returned by `uniqueId`: `id++; return
id.toString()`.  The state is the captured counter `id` (initially `0`); a
call returns the rendered string together with the new counter. -/
def uniqueIdNext (n : Nat) : String × Nat := (decimalStr (n + 1), n + 1)

/-- The `instanceof` classification the script performs on an element
(`HTMLButtonElement`, `HTMLInputElement`, `HTMLTextAreaElement`,
`HTMLLIElement`, `HTMLOptionElement`, or none of those). -/
inductive DomClass where
  | button
  | input
  | textarea
  | listItem
  | optionEl
  | other
deriving DecidableEq, Repr

/-- A JavaScript value of the element's `value` property, as far as the code
inspects it (`typeof` string or number). -/
inductive JsVal where
  | str (s : String)
  | num (n : Int)
deriving DecidableEq, Repr

/-- A DOM node as seen by the extraction script (see the header comment). -/
inductive DomNode where
  | text (content : String)
  | elem (tagName : String) (attrs : List (String × String)) (cls : DomClass)
      (valueProp : Option JsVal) (assignedSlot : Bool)
      (shadow : Option (List DomNode)) (assigned : List DomNode)
      (kids : List DomNode)

/-- `element.getAttribute name` over the attribute list (first match, DOM
attribute names are unique in a real document). -/
def getAttr (attrs : List (String × String)) (name : String) : Option String :=
  (attrs.find? (fun p => p.1 == name)).map (fun p => p.2)

/-- `element.setAttribute name v`: replace the value in place when the name is
present, otherwise append the new attribute at the end of enumeration order. -/
def setAttr (attrs : List (String × String)) (name v : String) :
    List (String × String) :=
  if attrs.any (fun p => p.1 == name) then
    attrs.map (fun p => if p.1 == name then (name, v) else p)
  else attrs ++ [(name, v)]

/-- The fixed noise-tag set of `cleanupDom` (`SPAN` is commented out in the
source). -/
def noiseTags : List String :=
  ["STYLE", "SCRIPT", "NOSCRIPT", "LINK", "META", "HEAD", "CODE", "SVG",
   "FONT", "BR"]

/-- The prune test of `cleanupDom`: noise tag, `type="hidden"`,
`disabled="true"`, or `aria-hidden="true"`. -/
def isPruned (tag : String) (attrs : List (String × String)) : Bool :=
  noiseTags.contains tag
    || getAttr attrs "type" == some "hidden"
    || getAttr attrs "disabled" == some "true"
    || getAttr attrs "aria-hidden" == some "true"

/-- The body of the `getAttributeNames().forEach` loop of `cleanupDom`,
iterated over the enumerated attribute names. -/
def normalizeAttrsGo (tag : String) (attrs : List (String × String)) :
    List String → List (String × String)
  | [] => []
  | name :: rest =>
    match getAttr attrs name with
    | none => normalizeAttrsGo tag attrs rest
    | some v =>
      let t := jsTrim v
      if t == "" then normalizeAttrsGo tag attrs rest
      else if name == "role" && t == "presentation" then
        normalizeAttrsGo tag attrs rest
      else if tag == "BUTTON" && t == "button" then
        normalizeAttrsGo tag attrs rest
      else (name, jsTrim (collapseWs t)) :: normalizeAttrsGo tag attrs rest

/-- The attribute loop of `cleanupDom`: enumerate the attribute names in DOM
order and push the kept, normalized pairs. -/
def normalizeAttrs (tag : String) (attrs : List (String × String)) :
    List (String × String) :=
  normalizeAttrsGo tag attrs (attrs.map Prod.fst)

/-- `element.value` coerced to a string, as pushed for an
`HTMLInputElement`.  In a real DOM the `value` property of an input is always
a string; the other branches record how JavaScript would coerce the model's
remaining cases. -/
def jsValToString : Option JsVal → String
  | some (.str s) => s
  | some (.num n) => toString n
  | none => "undefined"

/-- Whether the element is one of the five `instanceof` classes whose `value`
property the script inspects. -/
def isFormElement : DomClass → Bool
  | .button | .input | .textarea | .listItem | .optionEl => true
  | .other => false

/-- The synthetic attribute part of the value extraction of `cleanupDom`: an
`HTMLInputElement` pushes `{name: "value", value: element.value}` verbatim
before the attribute loop runs; nothing is pushed for the other classes. -/
def cleanupValueAttrs (cls : DomClass) (val : Option JsVal) :
    List (String × String) :=
  if cls == DomClass.input then [("value", jsValToString val)] else []

/-- The `value` field computed by `cleanupDom`: `null` for an input (its value
goes into the attribute set instead); for the other value-bearing classes a
textual value is kept trimmed and collapsed when non-empty after trimming, and
a numeric value is kept unchanged. -/
def cleanupValueField (cls : DomClass) (val : Option JsVal) : Option JsVal :=
  if cls == DomClass.input then none
  else if isFormElement cls then
    match val with
    | some (.str s) =>
      let t := jsTrim s
      if t == "" then none else some (.str (jsTrim (collapseWs t)))
    | some (.num k) => some (.num k)
    | none => none
  else none

/-- The element part of a `cleanupDom` result, before any children are pushed
into it by the walker loop (the source initializes `children: []`). -/
structure ElemShell where
  tagName : String
  attributes : List (String × String)
  value : Option JsVal
deriving Repr

/-- A non-null `cleanupDom` result. -/
inductive Shell where
  | text (t : String)
  | elem (sh : ElemShell)
deriving Repr

/-- A node of the extracted output tree. -/
inductive OutNode where
  | text (t : String)
  | elem (tagName : String) (attributes : List (String × String))
      (value : Option JsVal) (children : List OutNode)

/-- Embedding of `cleanupDom(element, window, idFunc)`.  Returns the produced
shell (`none` when the source returns `null`), the counter after the call and
the element as mutated by `setAttribute("mcp-id", ...)`; an `IFRAME` that
reaches the check throws.  The id is consumed and the `mcp-id` attribute is
written before the prune / slot / iframe checks, exactly as in the source. -/
def cleanupDom : DomNode → Nat → Except String (Option Shell × Nat × DomNode)
  | .text s, n =>
    let t := normalizeWs s
    if t == "" then .ok (none, n, .text s) else .ok (some (.text t), n, .text s)
  | .elem tag attrs cls val sl shadow assigned kids, n =>
    let step := uniqueIdNext n
    let attrs1 := setAttr attrs "mcp-id" step.1
    let m := DomNode.elem tag attrs1 cls val sl shadow assigned kids
    if isPruned tag attrs1 then .ok (none, step.2, m)
    else if sl then .ok (none, step.2, m)
    else if tag == "IFRAME" then .error "IFRAME not supported"
    else
      .ok (some (.elem ⟨tag,
             cleanupValueAttrs cls val ++ normalizeAttrs tag attrs1,
             cleanupValueField cls val⟩),
           step.2, m)

/-- The walker's child sequence of a node: its element/text children (the
TreeWalker is rooted in the light DOM and never enters shadow roots or slot
assignments). -/
def kidsOf : DomNode → List DomNode
  | .text _ => []
  | .elem _ _ _ _ _ _ _ kids => kids

/-- Replace the light-DOM children of a node. -/
def withKids : DomNode → List DomNode → DomNode
  | .text s, _ => .text s
  | .elem tag attrs cls val sl shadow assigned _, kids =>
    .elem tag attrs cls val sl shadow assigned kids

/-- One frame's scan: run `cleanupDom` on each walker child in sibling order,
threading the counter, as the inner `while (child)` loop does.  Each child is
paired with its mutated form. -/
def scanKids : List DomNode → Nat →
    Except String (List (Option Shell × DomNode) × Nat)
  | [], n => .ok ([], n)
  | c :: rest, n =>
    match cleanupDom c n with
    | .error e => .error e
    | .ok (shl, n1, m) =>
      match scanKids rest n1 with
      | .error e => .error e
      | .ok (scans, n2) => .ok ((shl, m) :: scans, n2)

mutual

/-- Process the pending frames of one scanned child list.  The source pushes
the kept children's frames onto a stack and pops them last-in-first-out, so
the subtree of a later sibling is completed before an earlier sibling's frame
runs: the recursion handles `rest` before `c`, while the returned lists keep
sibling order.  (A kept text node is also pushed as a frame in the source, but
a text node has no walker children, so its frame is a no-op and is not
modelled.) -/
def processRevList : List DomNode → List (Option Shell × DomNode) → Nat →
    Except String (List (Option OutNode) × List DomNode × Nat)
  | [], _, n => .ok ([], [], n)
  | c :: rest, [], n => .ok ([], c :: rest, n)
  | c :: rest, sc :: scans, n =>
    match processRevList rest scans n with
    | .error e => .error e
    | .ok (outs, muts, n1) =>
      match processNode c sc n1 with
      | .error e => .error e
      | .ok (oc, mc, n2) => .ok (oc :: outs, mc :: muts, n2)

/-- Process one scanned child: a dropped or text child produces no frame; a
kept element's frame scans its own walker children and then processes their
frames, exactly as when its stack entry is popped.  (The second match arm for
a text node carrying an element shell is unreachable: `cleanupDom` never
produces an element shell for a text node.) -/
def processNode : DomNode → Option Shell × DomNode → Nat →
    Except String (Option OutNode × DomNode × Nat)
  | _, (none, m), n => .ok (none, m, n)
  | _, (some (.text t), m), n => .ok (some (.text t), m, n)
  | .text s, (some (.elem sh), _), n =>
    .ok (some (.elem sh.tagName sh.attributes sh.value []), .text s, n)
  | .elem _ _ _ _ _ _ _ ckids, (some (.elem sh), m), n =>
    match scanKids ckids n with
    | .error e => .error e
    | .ok (cscans, n1) =>
      match processRevList ckids cscans n1 with
      | .error e => .error e
      | .ok (couts, cmuts, n2) =>
        .ok (some (.elem sh.tagName sh.attributes sh.value (couts.filterMap id)),
             withKids m cmuts, n2)

end

/-- One full frame for a child list: scan it, then process the pending
frames. -/
def walkKids (kids : List DomNode) (n : Nat) :
    Except String (List (Option OutNode) × List DomNode × Nat) :=
  match scanKids kids n with
  | .error e => .error e
  | .ok (scans, n1) => processRevList kids scans n1

/-- The walker loop in the case where `cleanupDom(document.body)` returned
`null`: the root frame still walks the body's children, but pushing the first
kept child onto `node.children` dereferences `null` and throws a `TypeError`;
if no child is kept the final `prettyPrintDom(null)` throws instead.  An
`IFRAME` reached before the first kept child still throws its own error. -/
def nullRootScan : List DomNode → Nat → Except String Unit
  | [], _ => .ok ()
  | c :: rest, n =>
    match cleanupDom c n with
    | .error e => .error e
    | .ok (none, n1, _) => nullRootScan rest n1
    | .ok (some _, _, _) => .error "TypeError: Cannot read properties of null"

/-- Embedding of the page-side script of `extractDom` up to (and excluding)
`prettyPrintDom`: classify the body, run the explicit-stack walker loop, and
return the root of the built tree together with the final counter value and
the mutated document body. -/
def extractTree (body : DomNode) : Except String (OutNode × Nat × DomNode) :=
  match cleanupDom body 0 with
  | .error e => .error e
  | .ok (none, n, body1) =>
    match nullRootScan (kidsOf body1) n with
    | .error e => .error e
    | .ok _ => .error "TypeError: Cannot read properties of null"
  | .ok (some (.text t), n, body1) => .ok (.text t, n, body1)
  | .ok (some (.elem sh), n, body1) =>
    match walkKids (kidsOf body1) n with
    | .error e => .error e
    | .ok (outs, muts, n2) =>
      .ok (.elem sh.tagName sh.attributes sh.value (outs.filterMap id), n2,
           withKids body1 muts)

/-- `'\t'.repeat(Math.floor(depth / 2))`. -/
def indentOf (depth : Nat) : String := String.mk (List.replicate (depth / 2) '\t')

/-- Attribute rendering of `prettyPrintDom`. -/
def prettyAttrs (attrs : List (String × String)) : String :=
  String.intercalate " " (attrs.map (fun p => p.1 ++ "=\x22" ++ p.2 ++ "\x22"))

mutual

/-- Embedding of `prettyPrintDom(node, depth)`. -/
def prettyPrintDom : OutNode → Nat → String
  | .text t, depth => indentOf depth ++ t
  | .elem tag attrs _ kids, depth =>
    let ind := indentOf depth
    let low := tag.toLower
    let attrsStr := prettyAttrs attrs
    match kids with
    | [OutNode.text t0] =>
      if low == "a" then
        ind ++ "<" ++ low ++ " " ++ attrsStr ++ ">" ++ t0 ++ "</" ++ low ++ ">"
      else
        ind ++ "<" ++ low ++ " " ++ attrsStr ++ ">\n" ++
          String.intercalate "\n" (prettyList [OutNode.text t0] (depth + 1)) ++
          "\n" ++ ind ++ "</" ++ low ++ ">"
    | kids0 =>
      ind ++ "<" ++ low ++ " " ++ attrsStr ++ ">\n" ++
        String.intercalate "\n" (prettyList kids0 (depth + 1)) ++
        "\n" ++ ind ++ "</" ++ low ++ ">"

/-- `node.children.map(child => prettyPrintDom(child, depth + 1))`. -/
def prettyList : List OutNode → Nat → List String
  | [], _ => []
  | c :: rest, depth => prettyPrintDom c depth :: prettyList rest depth

end

/-- Embedding of `extractDom(page)`: the extracted tree rendered by
`prettyPrintDom`. -/
def extractDom (body : DomNode) : Except String String :=
  match extractTree body with
  | .error e => .error e
  | .ok (root, _, _) => .ok (prettyPrintDom root 0)

/-- The result of one tool call, as returned to the protocol layer. -/
structure ToolResult where
  text : String
  isError : Bool
deriving DecidableEq, Repr

/-- Embedding of the `playwright_extract_dom` branch of `handleToolCall`: a
successful extraction returns the rendered text (an oversized payload is only
logged, the result is unchanged); a thrown error becomes a failed call whose
message wraps the underlying one. -/
def handleExtractDom (body : DomNode) : ToolResult :=
  match extractDom body with
  | .ok dom => ⟨dom, false⟩
  | .error e => ⟨"Failed to extract DOM: " ++ e, true⟩

mutual

/-- Tag names of all element nodes of an output tree, in preorder. -/
def outTags : OutNode → List String
  | .text _ => []
  | .elem tag _ _ kids => tag :: outTagsList kids

/-- `outTags` over a list of output trees. -/
def outTagsList : List OutNode → List String
  | [] => []
  | c :: rest => outTags c ++ outTagsList rest

end

mutual

/-- Contents of all text nodes of an output tree, in preorder. -/
def outTexts : OutNode → List String
  | .text t => [t]
  | .elem _ _ _ kids => outTextsList kids

/-- `outTexts` over a list of output trees. -/
def outTextsList : List OutNode → List String
  | [] => []
  | c :: rest => outTexts c ++ outTextsList rest

end

mutual

/-- All attribute entries of all element nodes of an output tree, in
preorder. -/
def attrEntries : OutNode → List (String × String)
  | .text _ => []
  | .elem _ attrs _ kids => attrs ++ attrEntriesList kids

/-- `attrEntries` over a list of output trees. -/
def attrEntriesList : List OutNode → List (String × String)
  | [] => []
  | c :: rest => attrEntries c ++ attrEntriesList rest

end

mutual

/-- How many element nodes of an output tree carry the given tag name. -/
def tagCount (t : String) : OutNode → Nat
  | .text _ => 0
  | .elem tag _ _ kids => (if tag == t then 1 else 0) + tagCountList t kids

/-- `tagCount` over a list of output trees. -/
def tagCountList (t : String) : List OutNode → Nat
  | [] => 0
  | c :: rest => tagCount t c + tagCountList t rest

end

mutual

/-- The `mcp-id` attribute values recorded on the element nodes of an output
tree, in preorder (depth first, parent before children, siblings left to
right). -/
def preorderMcpIds : OutNode → List String
  | .text _ => []
  | .elem _ attrs _ kids => (getAttr attrs "mcp-id").toList ++ preorderMcpIdsList kids

/-- `preorderMcpIds` over a list of output trees. -/
def preorderMcpIdsList : List OutNode → List String
  | [] => []
  | c :: rest => preorderMcpIds c ++ preorderMcpIdsList rest

end

mutual

/-- Tag names of the elements of the live region of a document: the elements
the walker both visits and keeps.  A pruned element or an element assigned to
a slot contributes nothing, and neither does anything below it; shadow-root
content and slot assignments are never part of the live region because the
TreeWalker only walks the light DOM. -/
def liveTags : DomNode → List String
  | .text _ => []
  | .elem tag attrs _ _ sl _ _ kids =>
    if isPruned tag attrs then []
    else if sl then []
    else tag :: liveTagsList kids

/-- `liveTags` over a list of sibling nodes. -/
def liveTagsList : List DomNode → List String
  | [] => []
  | c :: rest => liveTags c ++ liveTagsList rest

end

mutual

/-- Raw contents of the text nodes of the live region of a document (see
`liveTags`). -/
def liveTexts : DomNode → List String
  | .text s => [s]
  | .elem tag attrs _ _ sl _ _ kids =>
    if isPruned tag attrs then []
    else if sl then []
    else liveTextsList kids

/-- `liveTexts` over a list of sibling nodes. -/
def liveTextsList : List DomNode → List String
  | [] => []
  | c :: rest => liveTexts c ++ liveTextsList rest

end

mutual

/-- Every tag name occurring anywhere in a document: light DOM, shadow-root
content and slot assignments alike. -/
def allTags : DomNode → List String
  | .text _ => []
  | .elem tag _ _ _ _ shadow assigned kids =>
    tag :: (allTagsList kids ++ allTagsOpt shadow ++ allTagsList assigned)

/-- `allTags` over a list of nodes. -/
def allTagsList : List DomNode → List String
  | [] => []
  | c :: rest => allTags c ++ allTagsList rest

/-- `allTags` over an optional shadow-root child list. -/
def allTagsOpt : Option (List DomNode) → List String
  | none => []
  | some l => allTagsList l

end

mutual

/-- Erase every shadow root and every slot assignment from a document,
keeping the light DOM (including each element's `assignedSlot` flag)
unchanged. -/
def eraseProj : DomNode → DomNode
  | .text s => .text s
  | .elem tag attrs cls val sl _ _ kids =>
    .elem tag attrs cls val sl none [] (eraseProjList kids)

/-- `eraseProj` over a list of nodes. -/
def eraseProjList : List DomNode → List DomNode
  | [] => []
  | c :: rest => eraseProj c :: eraseProjList rest

end

mutual

/-- The second document differs from the first at most by `mcp-id` attributes
written with `setAttribute`: every node keeps its shape, class, value
property, slot assignment, shadow content and child structure. -/
inductive MarkedOnly : DomNode → DomNode → Prop where
  | text (s : String) : MarkedOnly (.text s) (.text s)
  | elem (tag : String) (attrs attrs1 : List (String × String)) (cls : DomClass)
      (val : Option JsVal) (sl : Bool) (shadow : Option (List DomNode))
      (assigned kids kids1 : List DomNode) :
      (attrs1 = attrs ∨ ∃ v, attrs1 = setAttr attrs "mcp-id" v) →
      MarkedForest kids kids1 →
      MarkedOnly (.elem tag attrs cls val sl shadow assigned kids)
        (.elem tag attrs1 cls val sl shadow assigned kids1)

/-- `MarkedOnly`, pointwise over two child lists. -/
inductive MarkedForest : List DomNode → List DomNode → Prop where
  | nil : MarkedForest [] []
  | cons {x y : DomNode} {xs ys : List DomNode} :
      MarkedOnly x y → MarkedForest xs ys → MarkedForest (x :: xs) (y :: ys)

end

/-- Modelled from the spec (§4.5 step 4), for comparison with the code: the
claimed child sequence of an element is its own direct child nodes, followed
by the children of its shadow root if one is attached, followed by, when the
element is itself a slot, the nodes currently projected into it. -/
def specChildSeq : DomNode → List DomNode
  | .text _ => []
  | .elem tag _ _ _ _ shadow assigned kids =>
    kids ++ (match shadow with | none => [] | some l => l) ++
      (if tag == "SLOT" then assigned else [])

/-- The identifier list is strictly increasing when read as the decimal
numbers the Identifier Assigner produces. -/
def StrIncrIds (l : List String) : Prop :=
  ∃ ks : List Nat, l = ks.map decimalStr ∧ ks.Chain' (· < ·)

/-- The scan entry recorded for one walker child: some `cleanupDom` call on
that child produced its shell and its mutated form. -/
def ScanFor (c : DomNode) (sc : Option Shell × DomNode) : Prop :=
  ∃ k k', cleanupDom c k = .ok (sc.1, k', sc.2)

/-- Pointwise `ScanFor` over the scanned children of one frame. -/
def ScansFor : List DomNode → List (Option Shell × DomNode) → Prop :=
  List.Forall₂ ScanFor

/-- The `mcp-id` identifiers recorded on the element shells of a scan list. -/
def shellIds (scans : List (Option Shell × DomNode)) : List String :=
  scans.filterMap (fun sc =>
    match sc.1 with
    | some (Shell.elem sh) => getAttr sh.attributes "mcp-id"
    | _ => none)

/-- Every identifier in the list renders a counter value at most `n`. -/
def IdsLe (l : List String) (n : Nat) : Prop :=
  ∀ s ∈ l, ∃ k, k ≤ n ∧ s = decimalStr k

/-- The identifiers of one processed child's output, in preorder. -/
def outIdsOpt : Option OutNode → List String
  | none => []
  | some o => preorderMcpIds o

/-- A plain empty body, used to instantiate several theorems. -/
def wBodyDoc : DomNode := .elem "BODY" [] .other none false none [] []

/-- A body with a custom element hosting a shadow root that contains a named
slot; the light-DOM `SPAN` child is assigned to that slot (`assignedSlot`
non-null, and the slot's assigned nodes hold it). -/
def cexSlotDoc : DomNode :=
  .elem "BODY" [] .other none false none []
    [ .elem "DIV" [] .other none false
        (some [ .elem "SLOT" [("name", "s")] .other none false none
                  [ .elem "SPAN" [("slot", "s")] .other none true none []
                      [ .text "Hi" ] ] [] ])
        []
        [ .elem "SPAN" [("slot", "s")] .other none true none []
            [ .text "Hi" ] ] ]

/-- A custom element carrying a shadow root whose content is a paragraph; the
element has no light-DOM children. -/
def cexShadowHost : DomNode :=
  .elem "DIV" [] .other none false
    (some [ .elem "P" [] .other none false none [] [ .text "Shadow" ] ]) [] []

/-- A body containing `cexShadowHost`. -/
def cexShadowDoc : DomNode :=
  .elem "BODY" [] .other none false none [] [ cexShadowHost ]

/-- A body containing an `IFRAME` that carries `aria-hidden="true"`. -/
def cexIframeDoc : DomNode :=
  .elem "BODY" [] .other none false none []
    [ .elem "IFRAME" [("aria-hidden", "true"), ("src", "https://x")] .other
        none false none [] [] ]

/-- A body containing a visible `IFRAME`. -/
def wIframeDoc : DomNode :=
  .elem "BODY" [] .other none false none []
    [ .elem "IFRAME" [("src", "https://x")] .other none false none [] [] ]

/-- A body whose first child has a child of its own and whose second child is
a leaf: `body > [div > span, p]`. -/
def cexOrderDoc : DomNode :=
  .elem "BODY" [] .other none false none []
    [ .elem "DIV" [] .other none false none []
        [ .elem "SPAN" [] .other none false none [] [] ],
      .elem "P" [] .other none false none [] [] ]

/-- A body containing an input control whose `value` property is the empty
string. -/
def cexEmptyValDoc : DomNode :=
  .elem "BODY" [] .other none false none []
    [ .elem "INPUT" [] .input (some (.str "")) false none [] [] ]

/-- A body containing `<button class="button">`. -/
def cexButtonDoc : DomNode :=
  .elem "BODY" [] .other none false none []
    [ .elem "BUTTON" [("class", "button")] .button (some (.str "")) false
        none [] [] ]

/-- A body containing an input control whose `value` property has untrimmed,
uncollapsed whitespace. -/
def cexInputWsDoc : DomNode :=
  .elem "BODY" [] .other none false none []
    [ .elem "INPUT" [] .input (some (.str "  a  b ")) false none [] [] ]

/-- A body whose first child is a `SCRIPT` (pruned) and whose second child is
a kept paragraph: the paragraph's identifier is `3`, not `2`. -/
def gapDoc : DomNode :=
  .elem "BODY" [] .other none false none []
    [ .elem "SCRIPT" [] .other none false none [] [],
      .elem "P" [] .other none false none [] [ .text " Hello   world " ] ]

/- ------------------------------------------------------------------ -/
/- Character and string lemmas.                                        -/
/- ------------------------------------------------------------------ -/

theorem string_mk_inj {l1 l2 : List Char} (h : String.mk l1 = String.mk l2) :
    l1 = l2 :=
  congrArg String.data h

theorem dropWhile_eq_cons_false {p : Char → Bool} :
    ∀ {l r : List Char} {c : Char}, List.dropWhile p l = c :: r → p c = false := by
  intro l
  induction l with
  | nil => intro r c h; simp [List.dropWhile] at h
  | cons a as ih =>
    intro r c h
    by_cases ha : p a
    · rw [List.dropWhile_cons_of_pos ha] at h; exact ih h
    · rw [List.dropWhile_cons_of_neg ha] at h
      cases h; simpa using ha

theorem trimChars_eq_nil_forall {l : List Char} (h : trimChars l = []) :
    ∀ c ∈ l, jsWhitespace c = true := by
  intro c hc
  have h2 : (l.dropWhile jsWhitespace).reverse.dropWhile jsWhitespace = [] := by
    have := congrArg List.reverse h
    simpa [trimChars] using this
  have hdrop : ∀ x ∈ l.dropWhile jsWhitespace, jsWhitespace x = true := by
    intro x hx
    exact (List.dropWhile_eq_nil_iff.mp h2) x (List.mem_reverse.mpr hx)
  have hsplit := List.takeWhile_append_dropWhile jsWhitespace l
  rw [← hsplit] at hc
  rcases List.mem_append.mp hc with h1 | h1
  · exact List.mem_takeWhile_imp h1
  · exact hdrop c h1

theorem trimChars_ne_nil_of_mem {l : List Char} {c : Char} (hc : c ∈ l)
    (hw : jsWhitespace c = false) : trimChars l ≠ [] := by
  intro h
  have := trimChars_eq_nil_forall h c hc
  rw [hw] at this
  exact Bool.false_ne_true this

theorem exists_not_ws_of_trimChars_ne_nil {l : List Char}
    (h : trimChars l ≠ []) : ∃ c ∈ trimChars l, jsWhitespace c = false := by
  unfold trimChars at h ⊢
  cases hd : (l.dropWhile jsWhitespace).reverse.dropWhile jsWhitespace with
  | nil => rw [hd] at h; simp at h
  | cons c r =>
    refine ⟨c, ?_, dropWhile_eq_cons_false hd⟩
    exact List.mem_reverse.mpr (by simp)

theorem collapseGo_mem_not_ws {c : Char} :
    ∀ {l : List Char} {b : Bool}, c ∈ l → jsWhitespace c = false →
      c ∈ collapseGo b l := by
  intro l
  induction l with
  | nil => intro b h; simp at h
  | cons a as ih =>
    intro b h hw
    by_cases ha : jsWhitespace a
    · have hca : c ≠ a := by intro he; rw [he, ha] at hw; exact absurd hw (by simp)
      have hmem : c ∈ as := by
        rcases List.mem_cons.mp h with h1 | h1
        · exact absurd h1 hca
        · exact h1
      simp only [collapseGo, ha, if_pos]
      by_cases hb : b
      · simpa [hb] using ih hmem hw
      · simp only [hb, if_neg Bool.false_ne_true]
        exact List.mem_cons_of_mem _ (ih hmem hw)
    · simp only [collapseGo, ha, if_neg, Bool.false_eq_true]
      rcases List.mem_cons.mp h with h1 | h1
      · exact h1 ▸ List.mem_cons_self _ _
      · exact List.mem_cons_of_mem _ (ih h1 hw)

/-- A string whose trim is non-empty still has a non-empty trim after the
collapse-then-trim normalization (used for the values the attribute loop
pushes). -/
theorem jsTrim_collapseWs_jsTrim_ne_empty {v : String}
    (h : jsTrim v ≠ "") : jsTrim (collapseWs (jsTrim v)) ≠ "" := by
  have h1 : trimChars v.data ≠ [] := by
    intro he
    exact h (congrArg String.mk he)
  obtain ⟨c, hc, hw⟩ := exists_not_ws_of_trimChars_ne_nil h1
  have hc2 : c ∈ collapseGo false (jsTrim v).toList := by
    apply collapseGo_mem_not_ws _ hw
    simpa [jsTrim] using hc
  have h3 : trimChars (collapseWs (jsTrim v)).data ≠ [] :=
    trimChars_ne_nil_of_mem (by simpa [collapseWs] using hc2) hw
  intro he
  exact h3 (string_mk_inj he)

/- ------------------------------------------------------------------ -/
/- Decimal identifier lemmas.                                          -/
/- ------------------------------------------------------------------ -/

theorem digitChar_inj {d1 d2 : Nat} (h1 : d1 < 10) (h2 : d2 < 10)
    (h : digitChar d1 = digitChar d2) : d1 = d2 := by
  interval_cases d1 <;> interval_cases d2 <;>
    first
    | rfl
    | exact absurd h (by decide)

theorem digitChar_not_ws {d : Nat} (h : d < 10) :
    jsWhitespace (digitChar d) = false := by
  interval_cases d <;> decide

theorem mem_natDigsAux {c : Char} :
    ∀ {fuel n : Nat}, c ∈ natDigsAux fuel n → ∃ d, d < 10 ∧ c = digitChar d := by
  intro fuel
  induction fuel with
  | zero => intro n h; simp [natDigsAux] at h
  | succ f ih =>
    intro n h
    by_cases hn : n < 10
    · simp only [natDigsAux, if_pos hn, List.mem_singleton] at h
      exact ⟨n, hn, h⟩
    · simp only [natDigsAux, if_neg hn, List.mem_append, List.mem_singleton] at h
      rcases h with h1 | h1
      · exact ih h1
      · exact ⟨n % 10, Nat.mod_lt _ (by omega), h1⟩

theorem natDigsAux_ne_nil {fuel n : Nat} (h : 0 < fuel) :
    natDigsAux fuel n ≠ [] := by
  match fuel with
  | f + 1 =>
    by_cases hn : n < 10
    · simp [natDigsAux, hn]
    · simp [natDigsAux, hn]

theorem natDigsAux_fuel :
    ∀ (n f1 f2 : Nat), n < f1 → n < f2 → natDigsAux f1 n = natDigsAux f2 n := by
  intro n
  induction n using Nat.strong_induction_on with
  | _ n ih =>
    intro f1 f2 h1 h2
    match f1, f2 with
    | fa + 1, fb + 1 =>
      by_cases hn : n < 10
      · simp [natDigsAux, hn]
      · simp only [natDigsAux, if_neg hn]
        have hdiv : n / 10 < n := Nat.div_lt_self (by omega) (by omega)
        have ha : n / 10 < fa := lt_of_lt_of_le hdiv (by omega)
        have hb : n / 10 < fb := lt_of_lt_of_le hdiv (by omega)
        rw [ih (n / 10) hdiv fa fb ha hb]

theorem decimalStr_inj : ∀ {a b : Nat}, decimalStr a = decimalStr b → a = b := by
  intro a
  induction a using Nat.strong_induction_on with
  | _ a ih =>
    intro b h
    have hl : natDigsAux (a + 1) a = natDigsAux (b + 1) b := string_mk_inj h
    by_cases hA : a < 10 <;> by_cases hB : b < 10
    · simp only [natDigsAux, if_pos hA, if_pos hB] at hl
      injection hl with h1 _
      exact digitChar_inj hA hB h1
    · exfalso
      simp only [natDigsAux, if_pos hA, if_neg hB] at hl
      have := congrArg List.length hl
      have hne : natDigsAux b (b / 10) ≠ [] := natDigsAux_ne_nil (by omega)
      simp only [List.length_singleton, List.length_append] at this
      have : 1 = (natDigsAux b (b / 10)).length + 1 := by simpa using this
      have h0 : (natDigsAux b (b / 10)).length = 0 := by omega
      exact hne (List.eq_nil_of_length_eq_zero h0)
    · exfalso
      simp only [natDigsAux, if_neg hA, if_pos hB] at hl
      have := congrArg List.length hl
      have hne : natDigsAux a (a / 10) ≠ [] := natDigsAux_ne_nil (by omega)
      simp only [List.length_singleton, List.length_append] at this
      have : (natDigsAux a (a / 10)).length + 1 = 1 := by simpa using this
      have h0 : (natDigsAux a (a / 10)).length = 0 := by omega
      exact hne (List.eq_nil_of_length_eq_zero h0)
    · simp only [natDigsAux, if_neg hA, if_neg hB] at hl
      obtain ⟨hpre, hlast⟩ := List.append_inj' hl rfl
      have hdivA : a / 10 < a := Nat.div_lt_self (by omega) (by omega)
      have hdivB : b / 10 < b := Nat.div_lt_self (by omega) (by omega)
      have hca : natDigsAux a (a / 10) = natDigsAux (a / 10 + 1) (a / 10) :=
        natDigsAux_fuel _ _ _ (by omega) (by omega)
      have hcb : natDigsAux b (b / 10) = natDigsAux (b / 10 + 1) (b / 10) :=
        natDigsAux_fuel _ _ _ (by omega) (by omega)
      have hdiv : a / 10 = b / 10 := by
        apply ih (a / 10) hdivA
        exact congrArg String.mk (hca ▸ hcb ▸ hpre)
      have hmod : a % 10 = b % 10 := by
        have := List.head_eq_of_cons_eq hlast
        exact digitChar_inj (Nat.mod_lt _ (by omega)) (Nat.mod_lt _ (by omega)) this
      have e1 := Nat.div_add_mod a 10
      have e2 := Nat.div_add_mod b 10
      omega

theorem decimalStr_ne_empty {k : Nat} : decimalStr k ≠ "" := by
  intro h
  exact @natDigsAux_ne_nil (k + 1) k (by omega) (string_mk_inj h)

theorem mem_decimalStr_digit {k : Nat} {c : Char} (h : c ∈ (decimalStr k).data) :
    ∃ d, d < 10 ∧ c = digitChar d :=
  mem_natDigsAux h

theorem collapseGo_of_no_ws :
    ∀ {l : List Char} {b : Bool}, (∀ c ∈ l, jsWhitespace c = false) →
      collapseGo b l = l := by
  intro l
  induction l with
  | nil => intro b _; rfl
  | cons a as ih =>
    intro b h
    have ha := h a (List.mem_cons_self _ _)
    have htail := @ih false (fun c hc => h c (List.mem_cons_of_mem _ hc))
    simp [collapseGo, ha, htail]

theorem dropWhile_of_no_ws {l : List Char}
    (h : ∀ c ∈ l, jsWhitespace c = false) : l.dropWhile jsWhitespace = l := by
  match l with
  | [] => rfl
  | a :: as =>
    have := h a (List.mem_cons_self _ _)
    simp [List.dropWhile, this]

theorem trimChars_of_no_ws {l : List Char}
    (h : ∀ c ∈ l, jsWhitespace c = false) : trimChars l = l := by
  unfold trimChars
  rw [dropWhile_of_no_ws h]
  rw [dropWhile_of_no_ws (fun c hc => h c (List.mem_reverse.mp hc))]
  exact List.reverse_reverse l

theorem decimalStr_no_ws {k : Nat} :
    ∀ c ∈ (decimalStr k).data, jsWhitespace c = false := by
  intro c hc
  obtain ⟨d, hd, rfl⟩ := mem_decimalStr_digit hc
  exact digitChar_not_ws hd

theorem jsTrim_decimalStr {k : Nat} : jsTrim (decimalStr k) = decimalStr k := by
  unfold jsTrim
  rw [show (decimalStr k).toList = (decimalStr k).data from rfl]
  rw [trimChars_of_no_ws decimalStr_no_ws]

theorem collapseWs_decimalStr {k : Nat} :
    collapseWs (decimalStr k) = decimalStr k := by
  unfold collapseWs
  rw [show (decimalStr k).toList = (decimalStr k).data from rfl]
  rw [collapseGo_of_no_ws decimalStr_no_ws]

theorem normalizeWs_decimalStr {k : Nat} :
    normalizeWs (decimalStr k) = decimalStr k := by
  unfold normalizeWs
  rw [collapseWs_decimalStr, jsTrim_decimalStr]

theorem decimalStr_ne_button {k : Nat} : decimalStr k ≠ "button" := by
  intro h
  have hb : 'b' ∈ (decimalStr k).data := by
    rw [h]; decide
  obtain ⟨d, hd, hc⟩ := mem_decimalStr_digit hb
  interval_cases d <;> exact absurd hc (by decide)

theorem jsTrim_jsTrim_ne_empty {x : String} (h : jsTrim x ≠ "") :
    jsTrim (jsTrim x) ≠ "" := by
  have h1 : trimChars x.data ≠ [] := fun he => h (congrArg String.mk he)
  obtain ⟨c, hc, hw⟩ := exists_not_ws_of_trimChars_ne_nil h1
  have h2 : trimChars (jsTrim x).data ≠ [] :=
    trimChars_ne_nil_of_mem (by simpa [jsTrim] using hc) hw
  exact fun he => h2 (string_mk_inj he)

/- ------------------------------------------------------------------ -/
/- Attribute list lemmas.                                              -/
/- ------------------------------------------------------------------ -/

theorem getAttr_nil {name : String} : getAttr [] name = none := rfl

theorem getAttr_cons_hit {p : String × String} {rest : List (String × String)}
    {name : String} (h : (p.1 == name) = true) :
    getAttr (p :: rest) name = some p.2 := by
  unfold getAttr
  simp only [List.find?_cons, h]
  rfl

theorem getAttr_cons_miss {p : String × String} {rest : List (String × String)}
    {name : String} (h : (p.1 == name) = false) :
    getAttr (p :: rest) name = getAttr rest name := by
  unfold getAttr
  simp only [List.find?_cons, h]

theorem getAttr_map_overwrite {name v : String} :
    ∀ (attrs : List (String × String)),
      getAttr (attrs.map (fun p => if p.1 == name then (name, v) else p)) name =
        if attrs.any (fun p => p.1 == name) then some v else none := by
  intro attrs
  induction attrs with
  | nil => rfl
  | cons p rest ih =>
    rw [List.map_cons, List.any_cons]
    by_cases hp : (p.1 == name) = true
    · rw [if_pos hp, hp, Bool.true_or, if_pos rfl]
      exact getAttr_cons_hit (by simp)
    · have hp2 : (p.1 == name) = false := by
        cases hb : (p.1 == name) with
        | true => exact absurd hb hp
        | false => rfl
      rw [if_neg (by simp [hp2]), hp2, Bool.false_or]
      rw [getAttr_cons_miss hp2, ih]

theorem getAttr_map_overwrite_ne {name name' v : String} (h : name' ≠ name) :
    ∀ (attrs : List (String × String)),
      getAttr (attrs.map (fun p => if p.1 == name then (name, v) else p)) name' =
        getAttr attrs name' := by
  intro attrs
  induction attrs with
  | nil => rfl
  | cons p rest ih =>
    rw [List.map_cons]
    by_cases hp : (p.1 == name) = true
    · have hpe : p.1 = name := beq_iff_eq.mp hp
      have hne : (name == name') = false :=
        beq_eq_false_iff_ne.mpr (fun he => h he.symm)
      have hne2 : (p.1 == name') = false := by rw [hpe]; exact hne
      rw [if_pos hp, getAttr_cons_miss hne, getAttr_cons_miss hne2, ih]
    · have hp2 : (p.1 == name) = false := by
        cases hb : (p.1 == name) with
        | true => exact absurd hb hp
        | false => rfl
      rw [if_neg (by simp [hp2])]
      by_cases hq : (p.1 == name') = true
      · rw [getAttr_cons_hit hq, getAttr_cons_hit hq]
      · have hq2 : (p.1 == name') = false := by
          cases hb : (p.1 == name') with
          | true => exact absurd hb hq
          | false => rfl
        rw [getAttr_cons_miss hq2, getAttr_cons_miss hq2, ih]

theorem getAttr_append_left_none {name : String} :
    ∀ {l1 l2 : List (String × String)},
      (∀ p ∈ l1, (p.1 == name) = false) →
      getAttr (l1 ++ l2) name = getAttr l2 name := by
  intro l1
  induction l1 with
  | nil => intro l2 _; rfl
  | cons p rest ih =>
    intro l2 h
    have hp := h p (List.mem_cons_self _ _)
    rw [List.cons_append, getAttr_cons_miss hp]
    exact ih (fun q hq => h q (List.mem_cons_of_mem _ hq))

theorem getAttr_setAttr_self {attrs : List (String × String)} {name v : String} :
    getAttr (setAttr attrs name v) name = some v := by
  unfold setAttr
  by_cases hany : attrs.any (fun p => p.1 == name)
  · rw [if_pos hany, getAttr_map_overwrite, if_pos hany]
  · rw [if_neg hany, getAttr_append_left_none]
    · exact getAttr_cons_hit (by simp)
    · intro p hp
      cases hb : (p.1 == name) with
      | true => exact absurd (List.any_eq_true.mpr ⟨p, hp, hb⟩) hany
      | false => rfl

theorem getAttr_setAttr_ne {attrs : List (String × String)} {name name' v : String}
    (h : name' ≠ name) : getAttr (setAttr attrs name v) name' = getAttr attrs name' := by
  unfold setAttr
  by_cases hany : attrs.any (fun p => p.1 == name)
  · rw [if_pos hany, getAttr_map_overwrite_ne h]
  · rw [if_neg hany]
    induction attrs with
    | nil =>
      rw [List.nil_append, getAttr_nil,
        getAttr_cons_miss (beq_eq_false_iff_ne.mpr (fun he => h he.symm)), getAttr_nil]
    | cons p rest ih =>
      rw [List.cons_append]
      by_cases hq : (p.1 == name') = true
      · rw [getAttr_cons_hit hq, getAttr_cons_hit hq]
      · have hq2 : (p.1 == name') = false := by
          cases hb : (p.1 == name') with
          | true => exact absurd hb hq
          | false => rfl
        rw [getAttr_cons_miss hq2, getAttr_cons_miss hq2]
        exact ih (fun hr => hany (by rw [List.any_cons, hr]; exact Bool.or_true _))

theorem isPruned_setAttr_mcp {tag : String} {attrs : List (String × String)}
    {v : String} : isPruned tag (setAttr attrs "mcp-id" v) = isPruned tag attrs := by
  unfold isPruned
  rw [getAttr_setAttr_ne (by decide), getAttr_setAttr_ne (by decide),
    getAttr_setAttr_ne (by decide)]

theorem mem_map_fst_setAttr_self {attrs : List (String × String)} {name v : String} :
    name ∈ (setAttr attrs name v).map Prod.fst := by
  unfold setAttr
  by_cases hany : attrs.any (fun p => p.1 == name)
  · rw [if_pos hany]
    obtain ⟨p, hp, hpe⟩ := List.any_eq_true.mp hany
    have hm : (name, v) ∈ attrs.map (fun p => if p.1 == name then (name, v) else p) :=
      List.mem_map.mpr ⟨p, hp, by simp [hpe]⟩
    exact List.mem_map.mpr ⟨(name, v), hm, rfl⟩
  · rw [if_neg hany]
    simp

/- ------------------------------------------------------------------ -/
/- Attribute normalizer lemmas.                                        -/
/- ------------------------------------------------------------------ -/

theorem mem_normalizeAttrsGo {tag : String} {attrs : List (String × String)}
    {name w : String} :
    ∀ {names : List String},
      ((name, w) ∈ normalizeAttrsGo tag attrs names ↔
        name ∈ names ∧ ∃ raw, getAttr attrs name = some raw ∧ jsTrim raw ≠ "" ∧
          ¬(name = "role" ∧ jsTrim raw = "presentation") ∧
          ¬(tag = "BUTTON" ∧ jsTrim raw = "button") ∧
          w = jsTrim (collapseWs (jsTrim raw))) := by
  intro names
  induction names with
  | nil => simp [normalizeAttrsGo]
  | cons nm rest ih =>
    constructor
    · intro h
      simp only [normalizeAttrsGo] at h
      rcases hget : getAttr attrs nm with _ | v
      · simp only [hget] at h
        obtain ⟨h1, h2⟩ := ih.mp h
        exact ⟨List.mem_cons_of_mem _ h1, h2⟩
      · simp only [hget] at h
        by_cases he : jsTrim v == ""
        · rw [if_pos he] at h
          obtain ⟨h1, h2⟩ := ih.mp h
          exact ⟨List.mem_cons_of_mem _ h1, h2⟩
        · rw [if_neg he] at h
          by_cases hrole : nm == "role" && jsTrim v == "presentation"
          · rw [if_pos hrole] at h
            obtain ⟨h1, h2⟩ := ih.mp h
            exact ⟨List.mem_cons_of_mem _ h1, h2⟩
          · rw [if_neg hrole] at h
            by_cases hbut : tag == "BUTTON" && jsTrim v == "button"
            · rw [if_pos hbut] at h
              obtain ⟨h1, h2⟩ := ih.mp h
              exact ⟨List.mem_cons_of_mem _ h1, h2⟩
            · rw [if_neg hbut] at h
              rcases List.mem_cons.mp h with h0 | h0
              · have hn : name = nm := congrArg Prod.fst h0
                have hw : w = jsTrim (collapseWs (jsTrim v)) := congrArg Prod.snd h0
                subst hn
                refine ⟨List.mem_cons_self _ _, v, hget, ?_, ?_, ?_, hw⟩
                · exact fun hc => (by simp [hc] at he)
                · intro ⟨ha, hb⟩
                  rw [ha, hb] at hrole
                  simp at hrole
                · intro ⟨ha, hb⟩
                  rw [ha, hb] at hbut
                  simp at hbut
              · obtain ⟨h1, h2⟩ := ih.mp h0
                exact ⟨List.mem_cons_of_mem _ h1, h2⟩
    · intro ⟨hmem, raw, hget, hne, hrole, hbut, hw⟩
      simp only [normalizeAttrsGo]
      by_cases hnm : name = nm
      · subst hnm
        simp only [hget]
        have he : (jsTrim raw == "") = false := beq_eq_false_iff_ne.mpr hne
        have hr : (name == "role" && jsTrim raw == "presentation") = false := by
          by_cases h1 : name = "role"
          · have h2 : jsTrim raw ≠ "presentation" := fun hc => hrole ⟨h1, hc⟩
            simp [beq_eq_false_iff_ne.mpr h2]
          · simp [beq_eq_false_iff_ne.mpr h1]
        have hb : (tag == "BUTTON" && jsTrim raw == "button") = false := by
          by_cases h1 : tag = "BUTTON"
          · have h2 : jsTrim raw ≠ "button" := fun hc => hbut ⟨h1, hc⟩
            simp [beq_eq_false_iff_ne.mpr h2]
          · simp [beq_eq_false_iff_ne.mpr h1]
        rw [if_neg (by simp [he]), if_neg (by simp [hr]), if_neg (by simp [hb])]
        exact hw ▸ List.mem_cons_self _ _
      · have hmem2 : name ∈ rest := by
          rcases List.mem_cons.mp hmem with h0 | h0
          · exact absurd h0 hnm
          · exact h0
        have htail : (name, w) ∈ normalizeAttrsGo tag attrs rest :=
          ih.mpr ⟨hmem2, raw, hget, hne, hrole, hbut, hw⟩
        rcases hget2 : getAttr attrs nm with _ | v
        · simp only [hget2]; exact htail
        · simp only [hget2]
          by_cases he : jsTrim v == ""
          · rw [if_pos he]; exact htail
          · rw [if_neg he]
            by_cases hrole2 : nm == "role" && jsTrim v == "presentation"
            · rw [if_pos hrole2]; exact htail
            · rw [if_neg hrole2]
              by_cases hbut2 : tag == "BUTTON" && jsTrim v == "button"
              · rw [if_pos hbut2]; exact htail
              · rw [if_neg hbut2]
                exact List.mem_cons_of_mem _ htail

theorem normalizeAttrs_value_ne_empty {tag name w : String}
    {attrs : List (String × String)}
    (h : (name, w) ∈ normalizeAttrs tag attrs) : jsTrim w ≠ "" := by
  obtain ⟨_, raw, _, hne, _, _, hw⟩ := mem_normalizeAttrsGo.mp h
  rw [hw]
  exact jsTrim_jsTrim_ne_empty (jsTrim_collapseWs_jsTrim_ne_empty hne)

theorem getAttr_normalizeAttrsGo {tag name raw : String}
    {attrs : List (String × String)}
    (hraw : getAttr attrs name = some raw)
    (hne : (jsTrim raw == "") = false)
    (hrole : (name == "role" && jsTrim raw == "presentation") = false)
    (hbutton : (tag == "BUTTON" && jsTrim raw == "button") = false) :
    ∀ {names : List String}, name ∈ names →
      getAttr (normalizeAttrsGo tag attrs names) name =
        some (jsTrim (collapseWs (jsTrim raw))) := by
  intro names
  induction names with
  | nil => intro h; simp at h
  | cons nm rest ih =>
    intro hmem
    simp only [normalizeAttrsGo]
    by_cases hnm : nm = name
    · subst hnm
      simp only [hraw]
      rw [if_neg (by simp [hne]), if_neg (by simp [hrole]),
        if_neg (by simp [hbutton])]
      exact getAttr_cons_hit (by simp)
    · have hmem2 : name ∈ rest := by
        rcases List.mem_cons.mp hmem with h0 | h0
        · exact absurd h0.symm hnm
        · exact h0
      have hskip : (nm == name) = false := beq_eq_false_iff_ne.mpr hnm
      rcases hget2 : getAttr attrs nm with _ | v
      · simp only [hget2]; exact ih hmem2
      · simp only [hget2]
        by_cases he : jsTrim v == ""
        · rw [if_pos he]; exact ih hmem2
        · rw [if_neg he]
          by_cases hrole2 : nm == "role" && jsTrim v == "presentation"
          · rw [if_pos hrole2]; exact ih hmem2
          · rw [if_neg hrole2]
            by_cases hbut2 : tag == "BUTTON" && jsTrim v == "button"
            · rw [if_pos hbut2]; exact ih hmem2
            · rw [if_neg hbut2]
              rw [getAttr_cons_miss hskip]
              exact ih hmem2

/- ------------------------------------------------------------------ -/
/- cleanupDom inversion lemmas.                                        -/
/- ------------------------------------------------------------------ -/

theorem cleanupDom_text_eq (s : String) (n : Nat) :
    cleanupDom (.text s) n =
      (if normalizeWs s == "" then .ok (none, n, .text s)
       else .ok (some (.text (normalizeWs s)), n, .text s)) := rfl

theorem cleanupDom_elem_eq (tag : String) (attrs : List (String × String))
    (cls : DomClass) (val : Option JsVal) (sl : Bool)
    (shadow : Option (List DomNode)) (assigned kids : List DomNode) (n : Nat) :
    cleanupDom (.elem tag attrs cls val sl shadow assigned kids) n =
      (if isPruned tag (setAttr attrs "mcp-id" (decimalStr (n + 1))) then
        .ok (none, n + 1,
          .elem tag (setAttr attrs "mcp-id" (decimalStr (n + 1))) cls val sl
            shadow assigned kids)
       else if sl then
        .ok (none, n + 1,
          .elem tag (setAttr attrs "mcp-id" (decimalStr (n + 1))) cls val sl
            shadow assigned kids)
       else if tag == "IFRAME" then .error "IFRAME not supported"
       else
        .ok (some (.elem ⟨tag,
               cleanupValueAttrs cls val ++
                 normalizeAttrs tag (setAttr attrs "mcp-id" (decimalStr (n + 1))),
               cleanupValueField cls val⟩),
             n + 1,
             .elem tag (setAttr attrs "mcp-id" (decimalStr (n + 1))) cls val sl
               shadow assigned kids)) := rfl

theorem cleanupDom_text_inv {s : String} {n : Nat} {shl : Option Shell}
    {n1 : Nat} {m : DomNode}
    (h : cleanupDom (.text s) n = .ok (shl, n1, m)) :
    n1 = n ∧ m = .text s ∧
      (shl = none ∨ (shl = some (.text (normalizeWs s)) ∧ normalizeWs s ≠ "")) := by
  rw [cleanupDom_text_eq] at h
  split at h
  next he =>
    simp only [Except.ok.injEq, Prod.mk.injEq] at h
    exact ⟨h.2.1.symm, h.2.2.symm, Or.inl h.1.symm⟩
  next he =>
    simp only [Except.ok.injEq, Prod.mk.injEq] at h
    refine ⟨h.2.1.symm, h.2.2.symm, Or.inr ⟨h.1.symm, ?_⟩⟩
    intro hc
    exact he (by rw [hc]; rfl)

theorem cleanupDom_elem_inv {tag : String} {attrs : List (String × String)}
    {cls : DomClass} {val : Option JsVal} {sl : Bool}
    {shadow : Option (List DomNode)} {assigned kids : List DomNode} {n : Nat}
    {shl : Option Shell} {n1 : Nat} {m : DomNode}
    (h : cleanupDom (.elem tag attrs cls val sl shadow assigned kids) n =
      .ok (shl, n1, m)) :
    n1 = n + 1 ∧
    m = DomNode.elem tag (setAttr attrs "mcp-id" (decimalStr (n + 1))) cls val sl
      shadow assigned kids ∧
    ((shl = none ∧ (isPruned tag attrs = true ∨ sl = true)) ∨
     (shl = some (.elem ⟨tag,
         cleanupValueAttrs cls val ++
           normalizeAttrs tag (setAttr attrs "mcp-id" (decimalStr (n + 1))),
         cleanupValueField cls val⟩) ∧
       isPruned tag attrs = false ∧ sl = false ∧ (tag == "IFRAME") = false)) := by
  rw [cleanupDom_elem_eq] at h
  split at h
  next hp =>
    rw [isPruned_setAttr_mcp] at hp
    simp only [Except.ok.injEq, Prod.mk.injEq] at h
    exact ⟨h.2.1.symm, h.2.2.symm, Or.inl ⟨h.1.symm, Or.inl hp⟩⟩
  next hp =>
    rw [isPruned_setAttr_mcp] at hp
    have hp2 : isPruned tag attrs = false := by
      cases hb : isPruned tag attrs with
      | true => exact absurd hb hp
      | false => rfl
    split at h
    next hs =>
      simp only [Except.ok.injEq, Prod.mk.injEq] at h
      exact ⟨h.2.1.symm, h.2.2.symm, Or.inl ⟨h.1.symm, Or.inr hs⟩⟩
    next hs =>
      have hs2 : sl = false := by
        cases hb : sl with
        | true => exact absurd hb hs
        | false => rfl
      split at h
      next hif => exact absurd h (by simp)
      next hif =>
        have hif2 : (tag == "IFRAME") = false := by
          cases hb : (tag == "IFRAME") with
          | true => exact absurd hb hif
          | false => rfl
        simp only [Except.ok.injEq, Prod.mk.injEq] at h
        exact ⟨h.2.1.symm, h.2.2.symm, Or.inr ⟨h.1.symm, hp2, hs2, hif2⟩⟩

theorem cleanupDom_error {c : DomNode} {n : Nat} {e : String}
    (h : cleanupDom c n = .error e) : e = "IFRAME not supported" := by
  match c with
  | .text s =>
    rw [cleanupDom_text_eq] at h
    split at h <;> exact absurd h (by simp)
  | .elem tag attrs cls val sl shadow assigned kids =>
    rw [cleanupDom_elem_eq] at h
    split at h
    next => exact absurd h (by simp)
    next =>
      split at h
      next => exact absurd h (by simp)
      next =>
        split at h
        next =>
          simp only [Except.error.injEq] at h
          exact h.symm
        next => exact absurd h (by simp)

theorem cleanupDom_iframe_error {attrs : List (String × String)} {cls : DomClass}
    {val : Option JsVal} {shadow : Option (List DomNode)}
    {assigned kids : List DomNode} {n : Nat}
    (hp : isPruned "IFRAME" attrs = false) :
    cleanupDom (.elem "IFRAME" attrs cls val false shadow assigned kids) n =
      .error "IFRAME not supported" := by
  rw [cleanupDom_elem_eq]
  rw [if_neg (by rw [isPruned_setAttr_mcp, hp]; exact Bool.false_ne_true),
    if_neg (by exact Bool.false_ne_true), if_pos (by rfl)]

theorem getAttr_shellAttrs_mcpId {tag : String} {attrs : List (String × String)}
    {cls : DomClass} {val : Option JsVal} {k : Nat} :
    getAttr (cleanupValueAttrs cls val ++
        normalizeAttrs tag (setAttr attrs "mcp-id" (decimalStr k))) "mcp-id" =
      some (decimalStr k) := by
  rw [getAttr_append_left_none]
  · unfold normalizeAttrs
    have hraw : getAttr (setAttr attrs "mcp-id" (decimalStr k)) "mcp-id" =
        some (decimalStr k) := getAttr_setAttr_self
    rw [getAttr_normalizeAttrsGo hraw
      (by rw [jsTrim_decimalStr]; exact beq_eq_false_iff_ne.mpr decimalStr_ne_empty)
      (by rw [show (("mcp-id" : String) == "role") = false from by decide]; rfl)
      (by rw [jsTrim_decimalStr]
          cases hb : (tag == "BUTTON") with
          | true => simp [beq_eq_false_iff_ne.mpr (@decimalStr_ne_button k)]
          | false => simp [hb])
      mem_map_fst_setAttr_self]
    rw [jsTrim_decimalStr, collapseWs_decimalStr, jsTrim_decimalStr]
  · intro p hp
    unfold cleanupValueAttrs at hp
    split at hp
    · rcases List.mem_singleton.mp hp with rfl
      show (("value" : String) == "mcp-id") = false
      decide
    · simp at hp

/- ------------------------------------------------------------------ -/
/- MarkedOnly and scanKids lemmas.                                     -/
/- ------------------------------------------------------------------ -/

mutual

theorem markedOnly_refl : ∀ (c : DomNode), MarkedOnly c c
  | .text s => .text s
  | .elem tag attrs cls val sl shadow assigned kids =>
    .elem tag attrs attrs cls val sl shadow assigned kids kids (Or.inl rfl)
      (markedForest_refl kids)

theorem markedForest_refl : ∀ (l : List DomNode), MarkedForest l l
  | [] => .nil
  | c :: rest => .cons (markedOnly_refl c) (markedForest_refl rest)

end

theorem scanKids_scansFor : ∀ {kids : List DomNode} {n : Nat}
    {scans : List (Option Shell × DomNode)} {n' : Nat},
    scanKids kids n = .ok (scans, n') → ScansFor kids scans := by
  intro kids
  induction kids with
  | nil =>
    intro n scans n' h
    simp only [scanKids, Except.ok.injEq, Prod.mk.injEq] at h
    rw [← h.1]
    exact List.Forall₂.nil
  | cons c rest ih =>
    intro n scans n' h
    simp only [scanKids] at h
    rcases hc : cleanupDom c n with e | ⟨shl, n1, m⟩
    · simp only [hc] at h
      exact (Except.noConfusion h)
    · simp only [hc] at h
      rcases hr : scanKids rest n1 with e | ⟨scans2, n2⟩
      · simp only [hr] at h
        exact (Except.noConfusion h)
      · simp only [hr, Except.ok.injEq, Prod.mk.injEq] at h
        rw [← h.1]
        exact List.Forall₂.cons ⟨n, n1, hc⟩ (ih hr)

theorem scanKids_error : ∀ {kids : List DomNode} {n : Nat} {e : String},
    scanKids kids n = .error e → e = "IFRAME not supported" := by
  intro kids
  induction kids with
  | nil => intro n e h; simp [scanKids] at h
  | cons c rest ih =>
    intro n e h
    simp only [scanKids] at h
    rcases hc : cleanupDom c n with e1 | ⟨shl, n1, m⟩
    · simp only [hc, Except.error.injEq] at h
      rw [← h]
      exact cleanupDom_error hc
    · simp only [hc] at h
      rcases hr : scanKids rest n1 with e1 | ⟨scans2, n2⟩
      · simp only [hr, Except.error.injEq] at h
        rw [← h]
        exact ih hr
      · simp only [hr] at h
        exact (Except.noConfusion h)

theorem scanKids_ids : ∀ {kids : List DomNode} {n : Nat}
    {scans : List (Option Shell × DomNode)} {n' : Nat},
    scanKids kids n = .ok (scans, n') →
    n ≤ n' ∧ (∀ s ∈ shellIds scans, ∃ k, n < k ∧ k ≤ n' ∧ s = decimalStr k) ∧
      (shellIds scans).Pairwise (· ≠ ·) := by
  intro kids
  induction kids with
  | nil =>
    intro n scans n' h
    simp only [scanKids, Except.ok.injEq, Prod.mk.injEq] at h
    rw [← h.1, ← h.2]
    exact ⟨Nat.le_refl n, by simp [shellIds], by simp [shellIds]⟩
  | cons c rest ih =>
    intro n scans n' h
    simp only [scanKids] at h
    rcases hc : cleanupDom c n with e | ⟨shl, n1, m⟩
    · simp only [hc] at h
      exact (Except.noConfusion h)
    · simp only [hc] at h
      rcases hr : scanKids rest n1 with e | ⟨scans2, n2⟩
      · simp only [hr] at h
        exact (Except.noConfusion h)
      · simp only [hr, Except.ok.injEq, Prod.mk.injEq] at h
        obtain ⟨hs, hn⟩ := h
        obtain ⟨ihm, ihb, ihp⟩ := ih hr
        subst hs
        subst hn
        match c with
        | .text s =>
          obtain ⟨he, _, hshl⟩ := cleanupDom_text_inv hc
          subst he
          have hsh : shellIds ((shl, m) :: scans2) = shellIds scans2 := by
            rcases hshl with h0 | ⟨h0, _⟩ <;> subst h0 <;>
              simp [shellIds, List.filterMap_cons]
          rw [hsh]
          exact ⟨ihm, ihb, ihp⟩
        | .elem tag attrs cls val sl shadow assigned kids0 =>
          obtain ⟨he, _, hshl⟩ := cleanupDom_elem_inv hc
          subst he
          have hle : n ≤ n2 := Nat.le_trans (Nat.le_succ n) ihm
          rcases hshl with ⟨h0, _⟩ | ⟨h0, _⟩
          · subst h0
            have hsh : shellIds ((none, m) :: scans2) = shellIds scans2 := by
              simp [shellIds, List.filterMap_cons]
            rw [hsh]
            refine ⟨hle, fun s hs2 => ?_, ihp⟩
            obtain ⟨k, hk1, hk2, hk3⟩ := ihb s hs2
            exact ⟨k, by omega, hk2, hk3⟩
          · subst h0
            have hsh : shellIds ((some (Shell.elem ⟨tag,
                cleanupValueAttrs cls val ++
                  normalizeAttrs tag (setAttr attrs "mcp-id" (decimalStr (n + 1))),
                cleanupValueField cls val⟩), m) :: scans2) =
                decimalStr (n + 1) :: shellIds scans2 := by
              simp only [shellIds, List.filterMap_cons]
              rw [show (getAttr (cleanupValueAttrs cls val ++
                  normalizeAttrs tag (setAttr attrs "mcp-id" (decimalStr (n + 1))))
                    "mcp-id") = some (decimalStr (n + 1)) from getAttr_shellAttrs_mcpId]
            rw [hsh]
            refine ⟨hle, fun s hs2 => ?_, ?_⟩
            · rcases List.mem_cons.mp hs2 with h1 | h1
              · exact ⟨n + 1, by omega, ihm, h1⟩
              · obtain ⟨k, hk1, hk2, hk3⟩ := ihb s h1
                exact ⟨k, by omega, hk2, hk3⟩
            · refine List.Pairwise.cons (fun s hs2 hcontra => ?_) ihp
              obtain ⟨k, hk1, hk2, hk3⟩ := ihb s hs2
              rw [hk3] at hcontra
              have := decimalStr_inj hcontra
              omega

/- ------------------------------------------------------------------ -/
/- List helper lemmas for the observation functions.                   -/
/- ------------------------------------------------------------------ -/

theorem filterMap_id_cons {oc : Option OutNode} {l : List (Option OutNode)} :
    (oc :: l).filterMap id = oc.toList ++ l.filterMap id := by
  cases oc <;> simp

theorem outTagsList_append : ∀ {l1 l2 : List OutNode},
    outTagsList (l1 ++ l2) = outTagsList l1 ++ outTagsList l2 := by
  intro l1
  induction l1 with
  | nil => intro l2; rfl
  | cons c rest ih => intro l2; simp [outTagsList, ih]

theorem outTextsList_append : ∀ {l1 l2 : List OutNode},
    outTextsList (l1 ++ l2) = outTextsList l1 ++ outTextsList l2 := by
  intro l1
  induction l1 with
  | nil => intro l2; rfl
  | cons c rest ih => intro l2; simp [outTextsList, ih]

theorem attrEntriesList_append : ∀ {l1 l2 : List OutNode},
    attrEntriesList (l1 ++ l2) = attrEntriesList l1 ++ attrEntriesList l2 := by
  intro l1
  induction l1 with
  | nil => intro l2; rfl
  | cons c rest ih => intro l2; simp [attrEntriesList, ih]

theorem preorderMcpIdsList_append : ∀ {l1 l2 : List OutNode},
    preorderMcpIdsList (l1 ++ l2) = preorderMcpIdsList l1 ++ preorderMcpIdsList l2 := by
  intro l1
  induction l1 with
  | nil => intro l2; rfl
  | cons c rest ih => intro l2; simp [preorderMcpIdsList, ih]

/- ------------------------------------------------------------------ -/
/- The walker loop only emits live content (tags and texts).           -/
/- ------------------------------------------------------------------ -/

mutual

theorem processRevList_subset : ∀ {kids : List DomNode}
    {scans : List (Option Shell × DomNode)} {n : Nat}
    {outs : List (Option OutNode)} {muts : List DomNode} {n1 : Nat},
    ScansFor kids scans →
    processRevList kids scans n = .ok (outs, muts, n1) →
    (∀ t ∈ outTagsList (outs.filterMap id), t ∈ liveTagsList kids) ∧
    (∀ s ∈ outTextsList (outs.filterMap id),
      ∃ r ∈ liveTextsList kids, s = normalizeWs r)
  | [], scans, n, outs, muts, n1 => by
    intro _ h
    simp only [processRevList, Except.ok.injEq, Prod.mk.injEq] at h
    rw [← h.1]
    exact ⟨by simp [outTagsList], by simp [outTextsList]⟩
  | c :: rest, [], n, outs, muts, n1 => by
    intro _ h
    simp only [processRevList, Except.ok.injEq, Prod.mk.injEq] at h
    rw [← h.1]
    exact ⟨by simp [outTagsList], by simp [outTextsList]⟩
  | c :: rest, sc :: scans', n, outs, muts, n1 => by
    intro hsc h
    cases hsc with
    | cons hhd htl =>
      simp only [processRevList] at h
      rcases hr : processRevList rest scans' n with e | ⟨outs0, muts0, nA⟩
      · simp only [hr] at h
        exact (Except.noConfusion h)
      · simp only [hr] at h
        rcases hn : processNode c sc nA with e | ⟨oc, mc0, n2⟩
        · simp only [hn] at h
          exact (Except.noConfusion h)
        · simp only [hn, Except.ok.injEq, Prod.mk.injEq] at h
          obtain ⟨ht0, hx0⟩ := processRevList_subset htl hr
          obtain ⟨ht1, hx1⟩ := processNode_subset hhd hn
          rw [← h.1]
          constructor
          · intro t ht
            rw [filterMap_id_cons, outTagsList_append] at ht
            rcases List.mem_append.mp ht with h2 | h2
            · exact List.mem_append.mpr (Or.inl (ht1 t h2))
            · exact List.mem_append.mpr (Or.inr (ht0 t h2))
          · intro s hs
            rw [filterMap_id_cons, outTextsList_append] at hs
            rcases List.mem_append.mp hs with h2 | h2
            · obtain ⟨r, hr1, hr2⟩ := hx1 s h2
              exact ⟨r, List.mem_append.mpr (Or.inl hr1), hr2⟩
            · obtain ⟨r, hr1, hr2⟩ := hx0 s h2
              exact ⟨r, List.mem_append.mpr (Or.inr hr1), hr2⟩

theorem processNode_subset : ∀ {c : DomNode} {sc : Option Shell × DomNode}
    {n : Nat} {oc : Option OutNode} {mc : DomNode} {n2 : Nat},
    ScanFor c sc →
    processNode c sc n = .ok (oc, mc, n2) →
    (∀ t ∈ outTagsList oc.toList, t ∈ liveTags c) ∧
    (∀ s ∈ outTextsList oc.toList, ∃ r ∈ liveTexts c, s = normalizeWs r)
  | c, (none, m), n, oc, mc, n2 => by
    intro _ h
    simp only [processNode, Except.ok.injEq, Prod.mk.injEq] at h
    rw [← h.1]
    exact ⟨by simp [outTagsList], by simp [outTextsList]⟩
  | c, (some (.text t), m), n, oc, mc, n2 => by
    intro hsc h
    simp only [processNode, Except.ok.injEq, Prod.mk.injEq] at h
    rw [← h.1]
    obtain ⟨k, k', hk⟩ := hsc
    match c with
    | .text s =>
      obtain ⟨_, _, hshl⟩ := cleanupDom_text_inv hk
      rcases hshl with h0 | ⟨h0, hne⟩
      · exact absurd h0 (by simp)
      · simp only [Option.some.injEq, Shell.text.injEq] at h0
        refine ⟨by simp [outTagsList, outTags], ?_⟩
        intro s2 hs2
        simp only [Option.toList_some, outTextsList, outTexts,
          List.append_nil, List.mem_singleton] at hs2
        exact ⟨s, by simp [liveTexts], by rw [hs2, h0]⟩
    | .elem tag attrs cls val sl shadow assigned kids0 =>
      obtain ⟨_, _, hshl⟩ := cleanupDom_elem_inv hk
      rcases hshl with ⟨h0, _⟩ | ⟨h0, _⟩ <;> exact absurd h0 (by simp)
  | .text s, (some (.elem sh), m), n, oc, mc, n2 => by
    intro hsc h
    obtain ⟨k, k', hk⟩ := hsc
    obtain ⟨_, _, hshl⟩ := cleanupDom_text_inv hk
    rcases hshl with h0 | ⟨h0, _⟩ <;> exact absurd h0 (by simp)
  | .elem tag attrs cls val sl shadow assigned ckids,
      (some (.elem sh), m), n, oc, mc, n2 => by
    intro hsc h
    obtain ⟨k, k', hk⟩ := hsc
    obtain ⟨_, _, hshl⟩ := cleanupDom_elem_inv hk
    rcases hshl with ⟨h0, _⟩ | ⟨h0, hpr, hsl, _⟩
    · exact absurd h0 (by simp)
    · simp only [Option.some.injEq, Shell.elem.injEq] at h0
      simp only [processNode] at h
      rcases hscan : scanKids ckids n with e | ⟨cscans, nA⟩
      · simp only [hscan] at h
        exact (Except.noConfusion h)
      · simp only [hscan] at h
        rcases hproc : processRevList ckids cscans nA with e | ⟨couts, cmuts, nB⟩
        · simp only [hproc] at h
          exact (Except.noConfusion h)
        · simp only [hproc, Except.ok.injEq, Prod.mk.injEq] at h
          obtain ⟨ht0, hx0⟩ := processRevList_subset (scanKids_scansFor hscan) hproc
          rw [← h.1]
          subst hsl
          have hlive : liveTags (.elem tag attrs cls val false shadow assigned ckids) =
              tag :: liveTagsList ckids := by
            simp [liveTags, hpr]
          have hlivet : liveTexts (.elem tag attrs cls val false shadow assigned ckids) =
              liveTextsList ckids := by
            simp [liveTexts, hpr]
          constructor
          · intro t ht
            simp only [Option.toList_some, outTagsList, outTags, List.append_nil] at ht
            rw [hlive]
            rcases List.mem_cons.mp ht with h2 | h2
            · rw [h2, h0]
              exact List.mem_cons_self _ _
            · exact List.mem_cons_of_mem _ (ht0 t h2)
          · intro s hs
            simp only [Option.toList_some, outTextsList, outTexts, List.append_nil] at hs
            obtain ⟨r, hr1, hr2⟩ := hx0 s hs
            rw [hlivet]
            exact ⟨r, hr1, hr2⟩

end

/- ------------------------------------------------------------------ -/
/- The walker loop mutates the document only through mcp-id writes.    -/
/- ------------------------------------------------------------------ -/

theorem markedOnly_of_cleanup {c : DomNode} {k k' : Nat} {shl : Option Shell}
    {m : DomNode} (hk : cleanupDom c k = .ok (shl, k', m)) : MarkedOnly c m := by
  match c with
  | .text s =>
    obtain ⟨_, hm, _⟩ := cleanupDom_text_inv hk
    rw [hm]
    exact .text s
  | .elem tag attrs cls val sl shadow assigned kids =>
    obtain ⟨_, hm, _⟩ := cleanupDom_elem_inv hk
    rw [hm]
    exact .elem tag attrs _ cls val sl shadow assigned kids kids
      (Or.inr ⟨decimalStr (k + 1), rfl⟩) (markedForest_refl kids)

mutual

theorem processRevList_marked : ∀ {kids : List DomNode}
    {scans : List (Option Shell × DomNode)} {n : Nat}
    {outs : List (Option OutNode)} {muts : List DomNode} {n1 : Nat},
    ScansFor kids scans →
    processRevList kids scans n = .ok (outs, muts, n1) →
    MarkedForest kids muts
  | [], scans, n, outs, muts, n1 => by
    intro _ h
    simp only [processRevList, Except.ok.injEq, Prod.mk.injEq] at h
    rw [← h.2.1]
    exact .nil
  | c :: rest, [], n, outs, muts, n1 => by
    intro _ h
    simp only [processRevList, Except.ok.injEq, Prod.mk.injEq] at h
    rw [← h.2.1]
    exact markedForest_refl _
  | c :: rest, sc :: scans', n, outs, muts, n1 => by
    intro hsc h
    cases hsc with
    | cons hhd htl =>
      simp only [processRevList] at h
      rcases hr : processRevList rest scans' n with e | ⟨outs0, muts0, nA⟩
      · simp only [hr] at h
        exact (Except.noConfusion h)
      · simp only [hr] at h
        rcases hn : processNode c sc nA with e | ⟨oc, mc0, n2⟩
        · simp only [hn] at h
          exact (Except.noConfusion h)
        · simp only [hn, Except.ok.injEq, Prod.mk.injEq] at h
          rw [← h.2.1]
          exact .cons (processNode_marked hhd hn) (processRevList_marked htl hr)

theorem processNode_marked : ∀ {c : DomNode} {sc : Option Shell × DomNode}
    {n : Nat} {oc : Option OutNode} {mc : DomNode} {n2 : Nat},
    ScanFor c sc →
    processNode c sc n = .ok (oc, mc, n2) →
    MarkedOnly c mc
  | c, (none, m), n, oc, mc, n2 => by
    intro hsc h
    simp only [processNode, Except.ok.injEq, Prod.mk.injEq] at h
    rw [← h.2.1]
    obtain ⟨k, k', hk⟩ := hsc
    exact markedOnly_of_cleanup hk
  | c, (some (.text t), m), n, oc, mc, n2 => by
    intro hsc h
    simp only [processNode, Except.ok.injEq, Prod.mk.injEq] at h
    rw [← h.2.1]
    obtain ⟨k, k', hk⟩ := hsc
    exact markedOnly_of_cleanup hk
  | .text s, (some (.elem sh), m), n, oc, mc, n2 => by
    intro hsc h
    obtain ⟨k, k', hk⟩ := hsc
    obtain ⟨_, _, hshl⟩ := cleanupDom_text_inv hk
    rcases hshl with h0 | ⟨h0, _⟩ <;> exact absurd h0 (by simp)
  | .elem tag attrs cls val sl shadow assigned ckids,
      (some (.elem sh), m), n, oc, mc, n2 => by
    intro hsc h
    obtain ⟨k, k', hk⟩ := hsc
    obtain ⟨_, hm, _⟩ := cleanupDom_elem_inv hk
    simp only [processNode] at h
    rcases hscan : scanKids ckids n with e | ⟨cscans, nA⟩
    · simp only [hscan] at h
      exact (Except.noConfusion h)
    · simp only [hscan] at h
      rcases hproc : processRevList ckids cscans nA with e | ⟨couts, cmuts, nB⟩
      · simp only [hproc] at h
        exact (Except.noConfusion h)
      · simp only [hproc, Except.ok.injEq, Prod.mk.injEq] at h
        have hm2 : m = DomNode.elem tag (setAttr attrs "mcp-id" (decimalStr (k + 1)))
            cls val sl shadow assigned ckids := hm
        rw [← h.2.1, hm2]
        exact .elem tag attrs _ cls val sl shadow assigned ckids cmuts
          (Or.inr ⟨decimalStr (k + 1), rfl⟩)
          (processRevList_marked (scanKids_scansFor hscan) hproc)

end

/- ------------------------------------------------------------------ -/
/- The only extraction error thrown inside the walker loop is the      -/
/- IFRAME one, and a live IFRAME always triggers it.                   -/
/- ------------------------------------------------------------------ -/

mutual

theorem processRevList_error_msg : ∀ {kids : List DomNode}
    {scans : List (Option Shell × DomNode)} {n : Nat} {e : String},
    processRevList kids scans n = .error e → e = "IFRAME not supported"
  | [], scans, n, e => by
    intro h
    simp only [processRevList] at h
    exact (Except.noConfusion h)
  | c :: rest, [], n, e => by
    intro h
    simp only [processRevList] at h
    exact (Except.noConfusion h)
  | c :: rest, sc :: scans', n, e => by
    intro h
    simp only [processRevList] at h
    rcases hr : processRevList rest scans' n with e1 | ⟨outs0, muts0, nA⟩
    · simp only [hr, Except.error.injEq] at h
      rw [← h]
      exact processRevList_error_msg hr
    · simp only [hr] at h
      rcases hn : processNode c sc nA with e1 | ⟨oc, mc0, n2⟩
      · simp only [hn, Except.error.injEq] at h
        rw [← h]
        exact processNode_error_msg hn
      · simp only [hn] at h
        exact (Except.noConfusion h)

theorem processNode_error_msg : ∀ {c : DomNode} {sc : Option Shell × DomNode}
    {n : Nat} {e : String},
    processNode c sc n = .error e → e = "IFRAME not supported"
  | c, (none, m), n, e => by
    intro h
    simp only [processNode] at h
    exact (Except.noConfusion h)
  | c, (some (.text t), m), n, e => by
    intro h
    simp only [processNode] at h
    exact (Except.noConfusion h)
  | .text s, (some (.elem sh), m), n, e => by
    intro h
    simp only [processNode] at h
    exact (Except.noConfusion h)
  | .elem tag attrs cls val sl shadow assigned ckids,
      (some (.elem sh), m), n, e => by
    intro h
    simp only [processNode] at h
    rcases hscan : scanKids ckids n with e1 | ⟨cscans, nA⟩
    · simp only [hscan, Except.error.injEq] at h
      rw [← h]
      exact scanKids_error hscan
    · simp only [hscan] at h
      rcases hproc : processRevList ckids cscans nA with e1 | ⟨couts, cmuts, nB⟩
      · simp only [hproc, Except.error.injEq] at h
        rw [← h]
        exact processRevList_error_msg hproc
      · simp only [hproc] at h
        exact (Except.noConfusion h)

end

mutual

theorem processRevList_iframe : ∀ {kids : List DomNode}
    {scans : List (Option Shell × DomNode)} {n : Nat},
    ScansFor kids scans →
    "IFRAME" ∈ liveTagsList kids →
    processRevList kids scans n = .error "IFRAME not supported"
  | [], scans, n => by
    intro _ hif
    simp [liveTagsList] at hif
  | c :: rest, [], n => by
    intro hsc hif
    exact absurd (List.Forall₂.length_eq hsc) (by simp)
  | c :: rest, sc :: scans', n => by
    intro hsc hif
    cases hsc with
    | cons hhd htl =>
      simp only [liveTagsList] at hif
      simp only [processRevList]
      rcases hr : processRevList rest scans' n with e1 | ⟨outs0, muts0, nA⟩
      · rw [processRevList_error_msg hr]
      · rcases List.mem_append.mp hif with h2 | h2
        · simp only [hr]
          rw [processNode_iframe hhd h2]
        · rw [processRevList_iframe htl h2] at hr
          exact (Except.noConfusion hr)

theorem processNode_iframe : ∀ {c : DomNode} {sc : Option Shell × DomNode}
    {n : Nat},
    ScanFor c sc →
    "IFRAME" ∈ liveTags c →
    processNode c sc n = .error "IFRAME not supported"
  | .text s, sc, n => by
    intro _ hif
    simp [liveTags] at hif
  | .elem tag attrs cls val sl shadow assigned ckids, sc, n => by
    intro hsc hif
    obtain ⟨k, k', hk⟩ := hsc
    rcases sc with ⟨shl, m⟩
    obtain ⟨_, _, hshl⟩ := cleanupDom_elem_inv hk
    by_cases hpr : isPruned tag attrs = true
    · rw [show liveTags (.elem tag attrs cls val sl shadow assigned ckids) = []
        by simp [liveTags, hpr]] at hif
      simp at hif
    · have hpr2 : isPruned tag attrs = false := by
        cases hb : isPruned tag attrs with
        | true => exact absurd hb hpr
        | false => rfl
      by_cases hsl : sl = true
      · rw [show liveTags (.elem tag attrs cls val sl shadow assigned ckids) = []
          by simp [liveTags, hsl]] at hif
        simp at hif
      · have hsl2 : sl = false := by
          cases hb : sl with
          | true => exact absurd hb hsl
          | false => rfl
        rw [show liveTags (.elem tag attrs cls val sl shadow assigned ckids) =
            tag :: liveTagsList ckids by simp [liveTags, hpr2, hsl2]] at hif
        rcases hshl with ⟨_, hd⟩ | ⟨h0, _, _, hift⟩
        · rcases hd with hd | hd
          · exact absurd hd (by rw [hpr2]; exact Bool.false_ne_true)
          · exact absurd hd (by rw [hsl2]; exact Bool.false_ne_true)
        · have htag : tag ≠ "IFRAME" := by
            intro hc
            rw [hc] at hift
            simp at hift
          have hif2 : "IFRAME" ∈ liveTagsList ckids := by
            rcases List.mem_cons.mp hif with h1 | h1
            · exact absurd h1.symm htag
            · exact h1
          subst h0
          simp only [processNode]
          rcases hscan : scanKids ckids n with e1 | ⟨cscans, nA⟩
          · rw [scanKids_error hscan]
          · simp only [hscan]
            rw [processRevList_iframe (scanKids_scansFor hscan) hif2]

end

/- ------------------------------------------------------------------ -/
/- Shadow roots and slot assignments never influence the walk.         -/
/- ------------------------------------------------------------------ -/

theorem kidsOf_erase : ∀ (c : DomNode), kidsOf (eraseProj c) = eraseProjList (kidsOf c)
  | .text _ => rfl
  | .elem _ _ _ _ _ _ _ _ => rfl

theorem withKids_erase : ∀ (m : DomNode) (l : List DomNode),
    withKids (eraseProj m) (eraseProjList l) = eraseProj (withKids m l)
  | .text _, _ => rfl
  | .elem _ _ _ _ _ _ _ _, _ => rfl

theorem cleanupDom_erase : ∀ (c : DomNode) (n : Nat),
    cleanupDom (eraseProj c) n =
      (cleanupDom c n).map (fun r => (r.1, r.2.1, eraseProj r.2.2)) := by
  intro c n
  match c with
  | .text s =>
    rw [show eraseProj (.text s) = .text s from rfl, cleanupDom_text_eq]
    by_cases h : (normalizeWs s == "") = true <;> simp [h, Except.map, eraseProj]
  | .elem tag attrs cls val sl shadow assigned kids =>
    rw [show eraseProj (.elem tag attrs cls val sl shadow assigned kids) =
      .elem tag attrs cls val sl none [] (eraseProjList kids) from rfl]
    rw [cleanupDom_elem_eq, cleanupDom_elem_eq]
    by_cases h1 : isPruned tag (setAttr attrs "mcp-id" (decimalStr (n + 1))) = true
    · simp [h1, Except.map, eraseProj]
    · by_cases h2 : sl = true
      · simp [h1, h2, Except.map, eraseProj]
      · by_cases h3 : (tag == "IFRAME") = true
        · simp [h1, h2, h3, Except.map]
        · simp [h1, h2, h3, Except.map, eraseProj]

theorem scanKids_erase : ∀ (kids : List DomNode) (n : Nat),
    scanKids (eraseProjList kids) n =
      (scanKids kids n).map
        (fun r => (r.1.map (fun sc => (sc.1, eraseProj sc.2)), r.2)) := by
  intro kids
  induction kids with
  | nil => intro n; rfl
  | cons c rest ih =>
    intro n
    rw [show eraseProjList (c :: rest) = eraseProj c :: eraseProjList rest from rfl]
    simp only [scanKids]
    rw [cleanupDom_erase]
    rcases hc : cleanupDom c n with e | ⟨shl, n1, m⟩
    · simp [Except.map]
    · simp only [Except.map]
      rw [ih]
      rcases hr : scanKids rest n1 with e | ⟨scans2, n2⟩
      · simp [Except.map]
      · simp [Except.map]

mutual

theorem processRevList_erase : ∀ (kids : List DomNode)
    (scans : List (Option Shell × DomNode)) (n : Nat),
    processRevList (eraseProjList kids)
        (scans.map (fun sc => (sc.1, eraseProj sc.2))) n =
      (processRevList kids scans n).map
        (fun r => (r.1, eraseProjList r.2.1, r.2.2))
  | [], scans, n => rfl
  | c :: rest, [], n => rfl
  | c :: rest, sc :: scans', n => by
    rw [show eraseProjList (c :: rest) = eraseProj c :: eraseProjList rest from rfl,
      List.map_cons]
    simp only [processRevList]
    rw [processRevList_erase rest scans' n]
    rcases hr : processRevList rest scans' n with e | ⟨outs0, muts0, nA⟩
    · simp [Except.map]
    · simp only [Except.map]
      rw [processNode_erase c sc nA]
      rcases hn : processNode c sc nA with e | ⟨oc, mc0, n2⟩
      · simp [Except.map]
      · simp only [Except.map]
        rfl

theorem processNode_erase : ∀ (c : DomNode) (sc : Option Shell × DomNode) (n : Nat),
    processNode (eraseProj c) (sc.1, eraseProj sc.2) n =
      (processNode c sc n).map (fun r => (r.1, eraseProj r.2.1, r.2.2))
  | c, (none, m), n => by
    match c with
    | .text s => rfl
    | .elem tag attrs cls val sl shadow assigned ckids => rfl
  | c, (some (.text t), m), n => by
    match c with
    | .text s => rfl
    | .elem tag attrs cls val sl shadow assigned ckids => rfl
  | .text s, (some (.elem sh), m), n => rfl
  | .elem tag attrs cls val sl shadow assigned ckids, (some (.elem sh), m), n => by
    show processNode (.elem tag attrs cls val sl none [] (eraseProjList ckids))
        (some (Shell.elem sh), eraseProj m) n = _
    simp only [processNode]
    rw [scanKids_erase]
    rcases hscan : scanKids ckids n with e | ⟨cscans, nA⟩
    · simp [Except.map]
    · simp only [Except.map]
      rw [processRevList_erase ckids cscans nA]
      rcases hproc : processRevList ckids cscans nA with e | ⟨couts, cmuts, nB⟩
      · simp [Except.map]
      · simp only [Except.map]
        rw [show withKids (eraseProj m) (eraseProjList cmuts) =
          eraseProj (withKids m cmuts) from withKids_erase m cmuts]

end

theorem walkKids_erase (kids : List DomNode) (n : Nat) :
    walkKids (eraseProjList kids) n =
      (walkKids kids n).map (fun r => (r.1, eraseProjList r.2.1, r.2.2)) := by
  unfold walkKids
  rw [scanKids_erase]
  rcases hs : scanKids kids n with e | ⟨scans, n1⟩
  · simp [Except.map]
  · simp only [Except.map]
    exact processRevList_erase kids scans n1

theorem nullRootScan_erase : ∀ (kids : List DomNode) (n : Nat),
    nullRootScan (eraseProjList kids) n = nullRootScan kids n := by
  intro kids
  induction kids with
  | nil => intro n; rfl
  | cons c rest ih =>
    intro n
    rw [show eraseProjList (c :: rest) = eraseProj c :: eraseProjList rest from rfl]
    simp only [nullRootScan]
    rw [cleanupDom_erase]
    rcases hc : cleanupDom c n with e | ⟨shl, n1, m⟩
    · simp [Except.map]
    · simp only [Except.map]
      match shl with
      | none => exact ih n1
      | some shl0 => rfl

theorem extractTree_erase (d : DomNode) :
    extractTree (eraseProj d) =
      (extractTree d).map (fun r => (r.1, r.2.1, eraseProj r.2.2)) := by
  unfold extractTree
  rw [cleanupDom_erase]
  rcases hc : cleanupDom d 0 with e | ⟨shl, n, body1⟩
  · rfl
  · match shl with
    | none =>
      dsimp only [Except.map]
      rw [kidsOf_erase, nullRootScan_erase]
      rcases hn : nullRootScan (kidsOf body1) n with e | u <;> rfl
    | some (.text t) => rfl
    | some (.elem sh) =>
      dsimp only [Except.map]
      rw [kidsOf_erase, walkKids_erase]
      rcases hw : walkKids (kidsOf body1) n with e | ⟨outs, muts, n2⟩
      · rfl
      · dsimp only [Except.map]
        rw [show withKids (eraseProj body1) (eraseProjList muts) =
          eraseProj (withKids body1 muts) from withKids_erase body1 muts]

/- ------------------------------------------------------------------ -/
/- Identifier bookkeeping of the walker loop.                          -/
/- ------------------------------------------------------------------ -/

theorem shellIds_cons {sc : Option Shell × DomNode}
    {scans : List (Option Shell × DomNode)} :
    shellIds (sc :: scans) = shellIds [sc] ++ shellIds scans := by
  rcases sc with ⟨shl, m⟩
  match shl with
  | none => simp [shellIds, List.filterMap_cons]
  | some (.text t) => simp [shellIds, List.filterMap_cons]
  | some (.elem sh) =>
    simp only [shellIds, List.filterMap_cons]
    cases getAttr sh.attributes "mcp-id" <;> simp

mutual

theorem processRevList_ids : ∀ {kids : List DomNode}
    {scans : List (Option Shell × DomNode)} {n : Nat}
    {outs : List (Option OutNode)} {muts : List DomNode} {n1 : Nat},
    ScansFor kids scans →
    processRevList kids scans n = .ok (outs, muts, n1) →
    n ≤ n1 ∧
    (∀ s ∈ preorderMcpIdsList (outs.filterMap id),
      s ∈ shellIds scans ∨ ∃ k, n < k ∧ k ≤ n1 ∧ s = decimalStr k) ∧
    (IdsLe (shellIds scans) n → (shellIds scans).Pairwise (· ≠ ·) →
      (preorderMcpIdsList (outs.filterMap id)).Pairwise (· ≠ ·))
  | [], scans, n, outs, muts, n1 => by
    intro _ h
    simp only [processRevList, Except.ok.injEq, Prod.mk.injEq] at h
    rw [← h.1, ← h.2.2]
    exact ⟨Nat.le_refl n, by simp [preorderMcpIdsList],
      fun _ _ => by simp [preorderMcpIdsList]⟩
  | c :: rest, [], n, outs, muts, n1 => by
    intro _ h
    simp only [processRevList, Except.ok.injEq, Prod.mk.injEq] at h
    rw [← h.1, ← h.2.2]
    exact ⟨Nat.le_refl n, by simp [preorderMcpIdsList],
      fun _ _ => by simp [preorderMcpIdsList]⟩
  | c :: rest, sc :: scans', n, outs, muts, n1 => by
    intro hsc h
    cases hsc with
    | cons hhd htl =>
      simp only [processRevList] at h
      rcases hr : processRevList rest scans' n with e | ⟨outs0, muts0, nA⟩
      · simp only [hr] at h
        exact (Except.noConfusion h)
      · simp only [hr] at h
        rcases hn : processNode c sc nA with e | ⟨oc, mc0, n2⟩
        · simp only [hn] at h
          exact (Except.noConfusion h)
        · simp only [hn, Except.ok.injEq, Prod.mk.injEq] at h
          obtain ⟨hle0, hmem0, hpw0⟩ := processRevList_ids htl hr
          obtain ⟨hle1, hmem1, hpw1⟩ := processNode_ids hhd hn
          rw [← h.1, ← h.2.2]
          have hids : preorderMcpIdsList ((oc :: outs0).filterMap id) =
              preorderMcpIdsList oc.toList ++
                preorderMcpIdsList (outs0.filterMap id) := by
            rw [filterMap_id_cons, preorderMcpIdsList_append]
          rw [hids]
          refine ⟨Nat.le_trans hle0 hle1, ?_, ?_⟩
          · intro s hs
            rcases List.mem_append.mp hs with h2 | h2
            · rcases hmem1 s h2 with h3 | ⟨k, hk1, hk2, hk3⟩
              · exact Or.inl (by
                  rw [shellIds_cons]
                  exact List.mem_append.mpr (Or.inl h3))
              · exact Or.inr ⟨k, by omega, hk2, hk3⟩
            · rcases hmem0 s h2 with h3 | ⟨k, hk1, hk2, hk3⟩
              · exact Or.inl (by
                  rw [shellIds_cons]
                  exact List.mem_append.mpr (Or.inr h3))
              · exact Or.inr ⟨k, hk1, by omega, hk3⟩
          · intro hLe hPw
            rw [shellIds_cons] at hLe hPw
            rw [List.pairwise_append] at hPw
            obtain ⟨hPw1, hPw2, hPwX⟩ := hPw
            have hLe1 : IdsLe (shellIds [sc]) nA := by
              intro s hs
              obtain ⟨k, hk, he⟩ := hLe s (List.mem_append.mpr (Or.inl hs))
              exact ⟨k, by omega, he⟩
            have hLe2 : IdsLe (shellIds scans') n := fun s hs =>
              hLe s (List.mem_append.mpr (Or.inr hs))
            rw [List.pairwise_append]
            refine ⟨hpw1 hLe1, hpw0 hLe2 hPw2, ?_⟩
            intro a ha b hb
            rcases hmem1 a ha with h3 | ⟨k1, hk11, hk12, hk13⟩
            · rcases hmem0 b hb with h4 | ⟨k2, hk21, hk22, hk23⟩
              · exact hPwX a h3 b h4
              · obtain ⟨ka, hka, hae⟩ := hLe a (List.mem_append.mpr (Or.inl h3))
                rw [hae, hk23]
                intro hcontra
                have := decimalStr_inj hcontra
                omega
            · rcases hmem0 b hb with h4 | ⟨k2, hk21, hk22, hk23⟩
              · obtain ⟨kb, hkb, hbe⟩ := hLe b (List.mem_append.mpr (Or.inr h4))
                rw [hk13, hbe]
                intro hcontra
                have := decimalStr_inj hcontra
                omega
              · rw [hk13, hk23]
                intro hcontra
                have := decimalStr_inj hcontra
                omega

theorem processNode_ids : ∀ {c : DomNode} {sc : Option Shell × DomNode}
    {n : Nat} {oc : Option OutNode} {mc : DomNode} {n2 : Nat},
    ScanFor c sc →
    processNode c sc n = .ok (oc, mc, n2) →
    n ≤ n2 ∧
    (∀ s ∈ preorderMcpIdsList oc.toList,
      s ∈ shellIds [sc] ∨ ∃ k, n < k ∧ k ≤ n2 ∧ s = decimalStr k) ∧
    (IdsLe (shellIds [sc]) n → (preorderMcpIdsList oc.toList).Pairwise (· ≠ ·))
  | c, (none, m), n, oc, mc, n2 => by
    intro _ h
    simp only [processNode, Except.ok.injEq, Prod.mk.injEq] at h
    rw [← h.1, ← h.2.2]
    exact ⟨Nat.le_refl n, by simp [preorderMcpIdsList],
      fun _ => by simp [preorderMcpIdsList]⟩
  | c, (some (.text t), m), n, oc, mc, n2 => by
    intro _ h
    simp only [processNode, Except.ok.injEq, Prod.mk.injEq] at h
    rw [← h.1, ← h.2.2]
    exact ⟨Nat.le_refl n, by simp [preorderMcpIdsList, preorderMcpIds],
      fun _ => by simp [preorderMcpIdsList, preorderMcpIds]⟩
  | .text s, (some (.elem sh), m), n, oc, mc, n2 => by
    intro hsc h
    obtain ⟨k, k', hk⟩ := hsc
    obtain ⟨_, _, hshl⟩ := cleanupDom_text_inv hk
    rcases hshl with h0 | ⟨h0, _⟩ <;> exact absurd h0 (by simp)
  | .elem tag attrs cls val sl shadow assigned ckids,
      (some (.elem sh), m), n, oc, mc, n2 => by
    intro hsc h
    obtain ⟨k, k', hk⟩ := hsc
    obtain ⟨hk', _, hshl⟩ := cleanupDom_elem_inv hk
    rcases hshl with ⟨h0, _⟩ | ⟨h0, _, _, _⟩
    · exact absurd h0 (by simp)
    · simp only [Option.some.injEq, Shell.elem.injEq] at h0
      simp only [processNode] at h
      rcases hscan : scanKids ckids n with e | ⟨cscans, nA⟩
      · simp only [hscan] at h
        exact (Except.noConfusion h)
      · simp only [hscan] at h
        rcases hproc : processRevList ckids cscans nA with e | ⟨couts, cmuts, nB⟩
        · simp only [hproc] at h
          exact (Except.noConfusion h)
        · simp only [hproc, Except.ok.injEq, Prod.mk.injEq] at h
          obtain ⟨hsLe, hsB, hsPw⟩ := scanKids_ids hscan
          obtain ⟨hle0, hmem0, hpw0⟩ :=
            processRevList_ids (scanKids_scansFor hscan) hproc
          rw [← h.1, ← h.2.2]
          have hown : getAttr sh.attributes "mcp-id" = some (decimalStr (k + 1)) := by
            rw [h0]
            exact getAttr_shellAttrs_mcpId
          have hids : preorderMcpIdsList ((some (OutNode.elem sh.tagName
              sh.attributes sh.value (couts.filterMap id)) : Option OutNode)).toList =
              decimalStr (k + 1) :: preorderMcpIdsList (couts.filterMap id) := by
            simp [preorderMcpIdsList, preorderMcpIds, hown]
          rw [hids]
          have hshell : shellIds [((some (Shell.elem sh) : Option Shell), m)] =
              [decimalStr (k + 1)] := by
            simp [shellIds, List.filterMap_cons, hown]
          refine ⟨Nat.le_trans hsLe hle0, ?_, ?_⟩
          · intro s hs
            rcases List.mem_cons.mp hs with h2 | h2
            · left
              rw [hshell, h2]
              exact List.mem_singleton.mpr rfl
            · rcases hmem0 s h2 with h3 | ⟨kx, hx1, hx2, hx3⟩
              · obtain ⟨kx, hx1, hx2, hx3⟩ := hsB s h3
                exact Or.inr ⟨kx, hx1, by omega, hx3⟩
              · exact Or.inr ⟨kx, by omega, hx2, hx3⟩
          · intro hLe
            have hLeC : IdsLe (shellIds cscans) nA := by
              intro s hs
              obtain ⟨kx, hx1, hx2, hx3⟩ := hsB s hs
              exact ⟨kx, hx2, hx3⟩
            refine List.Pairwise.cons ?_ (hpw0 hLeC hsPw)
            intro s hs hcontra
            obtain ⟨k0, hk0, he0⟩ := hLe (decimalStr (k + 1)) (by
              rw [hshell]
              exact List.mem_singleton.mpr rfl)
            have he1 := decimalStr_inj he0
            rcases hmem0 s hs with h3 | ⟨kx, hx1, hx2, hx3⟩
            · obtain ⟨kx, hx1, hx2, hx3⟩ := hsB s h3
              rw [hx3] at hcontra
              have := decimalStr_inj hcontra
              omega
            · rw [hx3] at hcontra
              have := decimalStr_inj hcontra
              omega

end

/- ------------------------------------------------------------------ -/
/- Any thrown extraction error names an IFRAME that is present.        -/
/- ------------------------------------------------------------------ -/

theorem cleanupDom_error_mem {c : DomNode} {n : Nat} {e : String}
    (h : cleanupDom c n = .error e) : "IFRAME" ∈ allTags c := by
  match c with
  | .text s =>
    rw [cleanupDom_text_eq] at h
    split at h <;> exact absurd h (by simp)
  | .elem tag attrs cls val sl shadow assigned kids =>
    rw [cleanupDom_elem_eq] at h
    split at h
    next => exact absurd h (by simp)
    next =>
      split at h
      next => exact absurd h (by simp)
      next =>
        split at h
        next hif =>
          have : tag = "IFRAME" := beq_iff_eq.mp hif
          rw [show allTags (.elem tag attrs cls val sl shadow assigned kids) =
            tag :: (allTagsList kids ++ allTagsOpt shadow ++ allTagsList assigned)
            from rfl, this]
          exact List.mem_cons_self _ _
        next => exact absurd h (by simp)

theorem scanKids_error_mem : ∀ {kids : List DomNode} {n : Nat} {e : String},
    scanKids kids n = .error e → "IFRAME" ∈ allTagsList kids := by
  intro kids
  induction kids with
  | nil => intro n e h; simp [scanKids] at h
  | cons c rest ih =>
    intro n e h
    simp only [scanKids] at h
    rcases hc : cleanupDom c n with e1 | ⟨shl, n1, m⟩
    · rw [show allTagsList (c :: rest) = allTags c ++ allTagsList rest from rfl]
      exact List.mem_append.mpr (Or.inl (cleanupDom_error_mem hc))
    · simp only [hc] at h
      rcases hr : scanKids rest n1 with e1 | ⟨scans2, n2⟩
      · rw [show allTagsList (c :: rest) = allTags c ++ allTagsList rest from rfl]
        exact List.mem_append.mpr (Or.inr (ih hr))
      · simp only [hr] at h
        exact (Except.noConfusion h)

mutual

theorem processRevList_error_mem : ∀ {kids : List DomNode}
    {scans : List (Option Shell × DomNode)} {n : Nat} {e : String},
    processRevList kids scans n = .error e → "IFRAME" ∈ allTagsList kids
  | [], scans, n, e => by
    intro h
    simp only [processRevList] at h
    exact (Except.noConfusion h)
  | c :: rest, [], n, e => by
    intro h
    simp only [processRevList] at h
    exact (Except.noConfusion h)
  | c :: rest, sc :: scans', n, e => by
    intro h
    simp only [processRevList] at h
    rcases hr : processRevList rest scans' n with e1 | ⟨outs0, muts0, nA⟩
    · rw [show allTagsList (c :: rest) = allTags c ++ allTagsList rest from rfl]
      exact List.mem_append.mpr (Or.inr (processRevList_error_mem hr))
    · simp only [hr] at h
      rcases hn : processNode c sc nA with e1 | ⟨oc, mc0, n2⟩
      · rw [show allTagsList (c :: rest) = allTags c ++ allTagsList rest from rfl]
        exact List.mem_append.mpr (Or.inl (processNode_error_mem hn))
      · simp only [hn] at h
        exact (Except.noConfusion h)

theorem processNode_error_mem : ∀ {c : DomNode} {sc : Option Shell × DomNode}
    {n : Nat} {e : String},
    processNode c sc n = .error e → "IFRAME" ∈ allTags c
  | c, (none, m), n, e => by
    intro h
    simp only [processNode] at h
    exact (Except.noConfusion h)
  | c, (some (.text t), m), n, e => by
    intro h
    simp only [processNode] at h
    exact (Except.noConfusion h)
  | .text s, (some (.elem sh), m), n, e => by
    intro h
    simp only [processNode] at h
    exact (Except.noConfusion h)
  | .elem tag attrs cls val sl shadow assigned ckids,
      (some (.elem sh), m), n, e => by
    intro h
    simp only [processNode] at h
    have hmem : "IFRAME" ∈ allTagsList ckids → "IFRAME" ∈
        allTags (.elem tag attrs cls val sl shadow assigned ckids) := by
      intro hx
      rw [show allTags (.elem tag attrs cls val sl shadow assigned ckids) =
        tag :: (allTagsList ckids ++ allTagsOpt shadow ++ allTagsList assigned)
        from rfl]
      exact List.mem_cons_of_mem _
        (List.mem_append.mpr (Or.inl (List.mem_append.mpr (Or.inl hx))))
    rcases hscan : scanKids ckids n with e1 | ⟨cscans, nA⟩
    · exact hmem (scanKids_error_mem hscan)
    · simp only [hscan] at h
      rcases hproc : processRevList ckids cscans nA with e1 | ⟨couts, cmuts, nB⟩
      · exact hmem (processRevList_error_mem hproc)
      · simp only [hproc] at h
        exact (Except.noConfusion h)

end

/- ------------------------------------------------------------------ -/
/- Lifting the loop lemmas to walkKids and extractTree.                -/
/- ------------------------------------------------------------------ -/

theorem walkKids_elim {kids : List DomNode} {n : Nat}
    {outs : List (Option OutNode)} {muts : List DomNode} {n1 : Nat}
    (h : walkKids kids n = .ok (outs, muts, n1)) :
    ∃ scans nS, scanKids kids n = .ok (scans, nS) ∧ ScansFor kids scans ∧
      processRevList kids scans nS = .ok (outs, muts, n1) := by
  unfold walkKids at h
  rcases hs : scanKids kids n with e | ⟨scans, nS⟩
  · simp only [hs] at h
    exact (Except.noConfusion h)
  · simp only [hs] at h
    exact ⟨scans, nS, rfl, scanKids_scansFor hs, h⟩

theorem walkKids_subset {kids : List DomNode} {n : Nat}
    {outs : List (Option OutNode)} {muts : List DomNode} {n1 : Nat}
    (h : walkKids kids n = .ok (outs, muts, n1)) :
    (∀ t ∈ outTagsList (outs.filterMap id), t ∈ liveTagsList kids) ∧
    (∀ s ∈ outTextsList (outs.filterMap id),
      ∃ r ∈ liveTextsList kids, s = normalizeWs r) := by
  obtain ⟨scans, nS, _, hsf, hp⟩ := walkKids_elim h
  exact processRevList_subset hsf hp

theorem walkKids_marked {kids : List DomNode} {n : Nat}
    {outs : List (Option OutNode)} {muts : List DomNode} {n1 : Nat}
    (h : walkKids kids n = .ok (outs, muts, n1)) : MarkedForest kids muts := by
  obtain ⟨scans, nS, _, hsf, hp⟩ := walkKids_elim h
  exact processRevList_marked hsf hp

theorem walkKids_ids {kids : List DomNode} {n : Nat}
    {outs : List (Option OutNode)} {muts : List DomNode} {n1 : Nat}
    (h : walkKids kids n = .ok (outs, muts, n1)) :
    n ≤ n1 ∧
    (∀ s ∈ preorderMcpIdsList (outs.filterMap id),
      ∃ k, n < k ∧ k ≤ n1 ∧ s = decimalStr k) ∧
    (preorderMcpIdsList (outs.filterMap id)).Pairwise (· ≠ ·) := by
  obtain ⟨scans, nS, hs, hsf, hp⟩ := walkKids_elim h
  obtain ⟨hsLe, hsB, hsPw⟩ := scanKids_ids hs
  obtain ⟨hle, hmem, hpw⟩ := processRevList_ids hsf hp
  refine ⟨Nat.le_trans hsLe hle, ?_, ?_⟩
  · intro s hs2
    rcases hmem s hs2 with h3 | ⟨k, hk1, hk2, hk3⟩
    · obtain ⟨k, hk1, hk2, hk3⟩ := hsB s h3
      exact ⟨k, hk1, by omega, hk3⟩
    · exact ⟨k, by omega, hk2, hk3⟩
  · refine hpw ?_ hsPw
    intro s hs2
    obtain ⟨k, hk1, hk2, hk3⟩ := hsB s hs2
    exact ⟨k, hk2, hk3⟩

theorem walkKids_iframe {kids : List DomNode} {n : Nat}
    (hif : "IFRAME" ∈ liveTagsList kids) :
    walkKids kids n = .error "IFRAME not supported" := by
  unfold walkKids
  rcases hs : scanKids kids n with e | ⟨scans, nS⟩
  · rw [scanKids_error hs]
  · exact processRevList_iframe (scanKids_scansFor hs) hif

theorem walkKids_error_mem {kids : List DomNode} {n : Nat} {e : String}
    (h : walkKids kids n = .error e) : "IFRAME" ∈ allTagsList kids := by
  unfold walkKids at h
  rcases hs : scanKids kids n with e1 | ⟨scans, nS⟩
  · exact scanKids_error_mem hs
  · simp only [hs] at h
    exact processRevList_error_mem h

theorem nullRootScan_error_mem : ∀ {kids : List DomNode} {n : Nat} {e : String},
    nullRootScan kids n = .error e → e = "TypeError: Cannot read properties of null" ∨
      "IFRAME" ∈ allTagsList kids := by
  intro kids
  induction kids with
  | nil => intro n e h; simp [nullRootScan] at h
  | cons c rest ih =>
    intro n e h
    simp only [nullRootScan] at h
    rcases hc : cleanupDom c n with e1 | ⟨shl, n1, m⟩
    · simp only [hc, Except.error.injEq] at h
      right
      rw [show allTagsList (c :: rest) = allTags c ++ allTagsList rest from rfl]
      exact List.mem_append.mpr (Or.inl (cleanupDom_error_mem hc))
    · simp only [hc] at h
      match shl, h with
      | none, h =>
        rcases ih h with h1 | h1
        · exact Or.inl h1
        · right
          rw [show allTagsList (c :: rest) = allTags c ++ allTagsList rest from rfl]
          exact List.mem_append.mpr (Or.inr h1)
      | some shl0, h =>
        simp only [Except.error.injEq] at h
        exact Or.inl h.symm

theorem extractTree_elim {d : DomNode} {out : OutNode} {nf : Nat} {mutd : DomNode}
    (h : extractTree d = .ok (out, nf, mutd)) :
    (∃ s, d = .text s ∧ out = .text (normalizeWs s) ∧ normalizeWs s ≠ "" ∧
      nf = 0 ∧ mutd = .text s) ∨
    (∃ tag attrs cls val shadow assigned kids outs muts,
      d = .elem tag attrs cls val false shadow assigned kids ∧
      isPruned tag attrs = false ∧
      walkKids kids 1 = .ok (outs, muts, nf) ∧
      out = .elem tag
        (cleanupValueAttrs cls val ++
          normalizeAttrs tag (setAttr attrs "mcp-id" (decimalStr 1)))
        (cleanupValueField cls val) (outs.filterMap id) ∧
      mutd = .elem tag (setAttr attrs "mcp-id" (decimalStr 1)) cls val false
        shadow assigned muts) := by
  unfold extractTree at h
  rcases hc : cleanupDom d 0 with e | ⟨shl, n, body1⟩
  · simp only [hc] at h
    exact (Except.noConfusion h)
  · simp only [hc] at h
    match shl, h with
    | none, h =>
      rcases hns : nullRootScan (kidsOf body1) n with e | u <;> simp only [hns] at h <;>
        exact (Except.noConfusion h)
    | some (.text t), h =>
      simp only [Except.ok.injEq, Prod.mk.injEq] at h
      match d, hc with
      | .text s, hc =>
        obtain ⟨hn, hm, hshl⟩ := cleanupDom_text_inv hc
        rcases hshl with h0 | ⟨h0, hne⟩
        · exact absurd h0 (by simp)
        · simp only [Option.some.injEq, Shell.text.injEq] at h0
          left
          exact ⟨s, rfl, by rw [← h.1, h0], hne, by omega, by rw [← h.2.2, hm]⟩
      | .elem tag attrs cls val sl shadow assigned kids, hc =>
        obtain ⟨_, _, hshl⟩ := cleanupDom_elem_inv hc
        rcases hshl with ⟨h0, _⟩ | ⟨h0, _⟩ <;> exact absurd h0 (by simp)
    | some (.elem sh), h =>
      match d, hc with
      | .text s, hc =>
        obtain ⟨_, _, hshl⟩ := cleanupDom_text_inv hc
        rcases hshl with h0 | ⟨h0, _⟩ <;> exact absurd h0 (by simp)
      | .elem tag attrs cls val sl shadow assigned kids, hc =>
        obtain ⟨hn, hm, hshl⟩ := cleanupDom_elem_inv hc
        rcases hshl with ⟨h0, _⟩ | ⟨h0, hpr, hsl, _⟩
        · exact absurd h0 (by simp)
        · simp only [Option.some.injEq, Shell.elem.injEq] at h0
          have hm2 : body1 = DomNode.elem tag (setAttr attrs "mcp-id"
              (decimalStr (0 + 1))) cls val sl shadow assigned kids := hm
          have hn2 : n = 0 + 1 := hn
          subst hm2
          subst hn2
          dsimp only [kidsOf] at h
          rcases hw : walkKids kids (0 + 1) with e | ⟨outs, muts, n2⟩
          · simp only [hw] at h
            exact (Except.noConfusion h)
          · simp only [hw, Except.ok.injEq, Prod.mk.injEq] at h
            right
            subst hsl
            refine ⟨tag, attrs, cls, val, shadow, assigned, kids, outs, muts,
              rfl, hpr, ?_, ?_, ?_⟩
            · rw [← h.2.1]
              exact hw
            · rw [← h.1, h0]
            · rw [← h.2.2]
              rfl

theorem extract_outTags_subset {d : DomNode} {out : OutNode} {nf : Nat}
    {mutd : DomNode} (h : extractTree d = .ok (out, nf, mutd)) :
    (∀ t ∈ outTags out, t ∈ liveTags d) ∧
    (∀ s ∈ outTexts out, ∃ r ∈ liveTexts d, s = normalizeWs r) := by
  rcases extractTree_elim h with ⟨s, hd, hout, hne, _, _⟩ |
    ⟨tag, attrs, cls, val, shadow, assigned, kids, outs, muts, hd, hpr, hw, hout, _⟩
  · subst hd
    subst hout
    refine ⟨by simp [outTags], ?_⟩
    intro s2 hs2
    simp only [outTexts, List.mem_singleton] at hs2
    exact ⟨s, by simp [liveTexts], hs2⟩
  · subst hd
    subst hout
    obtain ⟨ht, hx⟩ := walkKids_subset hw
    have hlive : liveTags (.elem tag attrs cls val false shadow assigned kids) =
        tag :: liveTagsList kids := by simp [liveTags, hpr]
    have hlivet : liveTexts (.elem tag attrs cls val false shadow assigned kids) =
        liveTextsList kids := by simp [liveTexts, hpr]
    constructor
    · intro t ht2
      simp only [outTags] at ht2
      rw [hlive]
      rcases List.mem_cons.mp ht2 with h2 | h2
      · exact h2 ▸ List.mem_cons_self _ _
      · exact List.mem_cons_of_mem _ (ht t h2)
    · intro s hs2
      simp only [outTexts] at hs2
      rw [hlivet]
      exact hx s hs2

theorem extract_marked {d : DomNode} {out : OutNode} {nf : Nat} {mutd : DomNode}
    (h : extractTree d = .ok (out, nf, mutd)) : MarkedOnly d mutd := by
  rcases extractTree_elim h with ⟨s, hd, _, _, _, hm⟩ |
    ⟨tag, attrs, cls, val, shadow, assigned, kids, outs, muts, hd, _, hw, _, hm⟩
  · subst hd
    subst hm
    exact .text s
  · subst hd
    subst hm
    exact .elem tag attrs _ cls val false shadow assigned kids muts
      (Or.inr ⟨decimalStr 1, rfl⟩) (walkKids_marked hw)

theorem extract_ids {d : DomNode} {out : OutNode} {nf : Nat} {mutd : DomNode}
    (h : extractTree d = .ok (out, nf, mutd)) :
    (∀ s ∈ preorderMcpIds out, ∃ k, 1 ≤ k ∧ k ≤ nf ∧ s = decimalStr k) ∧
    (preorderMcpIds out).Pairwise (· ≠ ·) := by
  rcases extractTree_elim h with ⟨s, hd, hout, _, _, _⟩ |
    ⟨tag, attrs, cls, val, shadow, assigned, kids, outs, muts, hd, hpr, hw, hout, _⟩
  · subst hout
    exact ⟨by simp [preorderMcpIds], by simp [preorderMcpIds]⟩
  · subst hout
    obtain ⟨hle, hmem, hpw⟩ := walkKids_ids hw
    have hone : getAttr (cleanupValueAttrs cls val ++
        normalizeAttrs tag (setAttr attrs "mcp-id" (decimalStr 1))) "mcp-id" =
        some (decimalStr 1) := getAttr_shellAttrs_mcpId
    have hids : preorderMcpIds (OutNode.elem tag
        (cleanupValueAttrs cls val ++
          normalizeAttrs tag (setAttr attrs "mcp-id" (decimalStr 1)))
        (cleanupValueField cls val) (outs.filterMap id)) =
        decimalStr 1 :: preorderMcpIdsList (outs.filterMap id) := by
      simp [preorderMcpIds, hone]
    rw [hids]
    constructor
    · intro s hs
      rcases List.mem_cons.mp hs with h2 | h2
      · exact ⟨1, Nat.le_refl 1, hle, h2⟩
      · obtain ⟨k, hk1, hk2, hk3⟩ := hmem s h2
        exact ⟨k, by omega, hk2, hk3⟩
    · refine List.Pairwise.cons (fun s hs hcontra => ?_) hpw
      obtain ⟨k, hk1, hk2, hk3⟩ := hmem s hs
      rw [hk3] at hcontra
      have := decimalStr_inj hcontra
      omega

theorem extract_iframe_live {d : DomNode} (hif : "IFRAME" ∈ liveTags d) :
    extractTree d = .error "IFRAME not supported" := by
  match d with
  | .text s => simp [liveTags] at hif
  | .elem tag attrs cls val sl shadow assigned kids =>
    by_cases hpr : isPruned tag attrs = true
    · rw [show liveTags (.elem tag attrs cls val sl shadow assigned kids) = []
        by simp [liveTags, hpr]] at hif
      simp at hif
    · have hpr2 : isPruned tag attrs = false := by
        cases hb : isPruned tag attrs with
        | true => exact absurd hb hpr
        | false => rfl
      by_cases hsl : sl = true
      · rw [show liveTags (.elem tag attrs cls val sl shadow assigned kids) = []
          by simp [liveTags, hsl]] at hif
        simp at hif
      · have hsl2 : sl = false := by
          cases hb : sl with
          | true => exact absurd hb hsl
          | false => rfl
        subst hsl2
        rw [show liveTags (.elem tag attrs cls val false shadow assigned kids) =
          tag :: liveTagsList kids by simp [liveTags, hpr2]] at hif
        by_cases htag : tag = "IFRAME"
        · subst htag
          unfold extractTree
          rw [cleanupDom_iframe_error hpr2]
        · have hif2 : "IFRAME" ∈ liveTagsList kids := by
            rcases List.mem_cons.mp hif with h1 | h1
            · exact absurd h1.symm htag
            · exact h1
          unfold extractTree
          rw [cleanupDom_elem_eq,
            if_neg (by rw [isPruned_setAttr_mcp, hpr2]; exact Bool.false_ne_true),
            if_neg Bool.false_ne_true,
            if_neg (by simp [beq_eq_false_iff_ne.mpr htag])]
          dsimp only [kidsOf]
          rw [walkKids_iframe hif2]

theorem extract_error_iframe_mem {d : DomNode}
    (h : extractTree d = .error "IFRAME not supported") : "IFRAME" ∈ allTags d := by
  unfold extractTree at h
  rcases hc : cleanupDom d 0 with e | ⟨shl, n, body1⟩
  · exact cleanupDom_error_mem hc
  · simp only [hc] at h
    have hkids : "IFRAME" ∈ allTagsList (kidsOf body1) → "IFRAME" ∈ allTags d := by
      intro hx
      match d, hc with
      | .text s, hc =>
        obtain ⟨_, hm, _⟩ := cleanupDom_text_inv hc
        rw [hm] at hx
        simp [kidsOf, allTagsList] at hx
      | .elem tag attrs cls val sl shadow assigned kids, hc =>
        obtain ⟨_, hm, _⟩ := cleanupDom_elem_inv hc
        rw [hm] at hx
        rw [show allTags (.elem tag attrs cls val sl shadow assigned kids) =
          tag :: (allTagsList kids ++ allTagsOpt shadow ++ allTagsList assigned)
          from rfl]
        exact List.mem_cons_of_mem _
          (List.mem_append.mpr (Or.inl (List.mem_append.mpr (Or.inl hx))))
    match shl, h with
    | none, h =>
      rcases hns : nullRootScan (kidsOf body1) n with e | u
      · simp only [hns, Except.error.injEq] at h
        rcases nullRootScan_error_mem hns with h1 | h1
        · rw [h1] at h
          exact absurd h (by decide)
        · exact hkids h1
      · simp only [hns] at h
        simp at h
    | some (.text t), h => exact (Except.noConfusion h)
    | some (.elem sh), h =>
      rcases hw : walkKids (kidsOf body1) n with e | ⟨outs, muts, n2⟩
      · exact hkids (walkKids_error_mem hw)
      · simp only [hw] at h
        exact (Except.noConfusion h)

theorem handleExtractDom_error {d : DomNode} {e : String}
    (h : extractTree d = .error e) :
    handleExtractDom d = ⟨"Failed to extract DOM: " ++ e, true⟩ := by
  unfold handleExtractDom extractDom
  rw [h]

/- ------------------------------------------------------------------ -/
/- Attribute entries of the output: only the synthetic input value may -/
/- trim to the empty string.                                           -/
/- ------------------------------------------------------------------ -/

theorem shellAttrs_empty_is_value {tag name w : String}
    {attrs : List (String × String)} {cls : DomClass} {val : Option JsVal} {k : Nat}
    (hmem : (name, w) ∈ cleanupValueAttrs cls val ++
      normalizeAttrs tag (setAttr attrs "mcp-id" (decimalStr k)))
    (hempty : jsTrim w = "") : name = "value" := by
  rcases List.mem_append.mp hmem with h1 | h1
  · unfold cleanupValueAttrs at h1
    split at h1
    · have := List.mem_singleton.mp h1
      exact congrArg Prod.fst this
    · simp at h1
  · exact absurd hempty (normalizeAttrs_value_ne_empty h1)

mutual

theorem processRevList_attrs : ∀ {kids : List DomNode}
    {scans : List (Option Shell × DomNode)} {n : Nat}
    {outs : List (Option OutNode)} {muts : List DomNode} {n1 : Nat},
    ScansFor kids scans →
    processRevList kids scans n = .ok (outs, muts, n1) →
    ∀ p ∈ attrEntriesList (outs.filterMap id), jsTrim p.2 = "" → p.1 = "value"
  | [], scans, n, outs, muts, n1 => by
    intro _ h
    simp only [processRevList, Except.ok.injEq, Prod.mk.injEq] at h
    rw [← h.1]
    simp [attrEntriesList]
  | c :: rest, [], n, outs, muts, n1 => by
    intro _ h
    simp only [processRevList, Except.ok.injEq, Prod.mk.injEq] at h
    rw [← h.1]
    simp [attrEntriesList]
  | c :: rest, sc :: scans', n, outs, muts, n1 => by
    intro hsc h
    cases hsc with
    | cons hhd htl =>
      simp only [processRevList] at h
      rcases hr : processRevList rest scans' n with e | ⟨outs0, muts0, nA⟩
      · simp only [hr] at h
        exact (Except.noConfusion h)
      · simp only [hr] at h
        rcases hn : processNode c sc nA with e | ⟨oc, mc0, n2⟩
        · simp only [hn] at h
          exact (Except.noConfusion h)
        · simp only [hn, Except.ok.injEq, Prod.mk.injEq] at h
          rw [← h.1]
          intro p hp hemp
          rw [filterMap_id_cons, attrEntriesList_append] at hp
          rcases List.mem_append.mp hp with h2 | h2
          · exact processNode_attrs hhd hn p h2 hemp
          · exact processRevList_attrs htl hr p h2 hemp

theorem processNode_attrs : ∀ {c : DomNode} {sc : Option Shell × DomNode}
    {n : Nat} {oc : Option OutNode} {mc : DomNode} {n2 : Nat},
    ScanFor c sc →
    processNode c sc n = .ok (oc, mc, n2) →
    ∀ p ∈ attrEntriesList oc.toList, jsTrim p.2 = "" → p.1 = "value"
  | c, (none, m), n, oc, mc, n2 => by
    intro _ h
    simp only [processNode, Except.ok.injEq, Prod.mk.injEq] at h
    rw [← h.1]
    simp [attrEntriesList]
  | c, (some (.text t), m), n, oc, mc, n2 => by
    intro _ h
    simp only [processNode, Except.ok.injEq, Prod.mk.injEq] at h
    rw [← h.1]
    simp [attrEntriesList, attrEntries]
  | .text s, (some (.elem sh), m), n, oc, mc, n2 => by
    intro hsc h
    obtain ⟨k, k', hk⟩ := hsc
    obtain ⟨_, _, hshl⟩ := cleanupDom_text_inv hk
    rcases hshl with h0 | ⟨h0, _⟩ <;> exact absurd h0 (by simp)
  | .elem tag attrs cls val sl shadow assigned ckids,
      (some (.elem sh), m), n, oc, mc, n2 => by
    intro hsc h
    obtain ⟨k, k', hk⟩ := hsc
    obtain ⟨_, _, hshl⟩ := cleanupDom_elem_inv hk
    rcases hshl with ⟨h0, _⟩ | ⟨h0, _, _, _⟩
    · exact absurd h0 (by simp)
    · simp only [Option.some.injEq, Shell.elem.injEq] at h0
      simp only [processNode] at h
      rcases hscan : scanKids ckids n with e | ⟨cscans, nA⟩
      · simp only [hscan] at h
        exact (Except.noConfusion h)
      · simp only [hscan] at h
        rcases hproc : processRevList ckids cscans nA with e | ⟨couts, cmuts, nB⟩
        · simp only [hproc] at h
          exact (Except.noConfusion h)
        · simp only [hproc, Except.ok.injEq, Prod.mk.injEq] at h
          rw [← h.1]
          intro p hp hemp
          simp only [Option.toList_some, attrEntriesList, attrEntries,
            List.append_nil] at hp
          rcases List.mem_append.mp hp with h2 | h2
          · rcases p with ⟨name, w⟩
            rw [h0] at h2
            exact shellAttrs_empty_is_value h2 hemp
          · exact processRevList_attrs (scanKids_scansFor hscan) hproc p h2 hemp

end

theorem extract_attrs {d : DomNode} {out : OutNode} {nf : Nat} {mutd : DomNode}
    (h : extractTree d = .ok (out, nf, mutd)) :
    ∀ p ∈ attrEntries out, jsTrim p.2 = "" → p.1 = "value" := by
  rcases extractTree_elim h with ⟨s, hd, hout, _, _, _⟩ |
    ⟨tag, attrs, cls, val, shadow, assigned, kids, outs, muts, hd, hpr, hw, hout, _⟩
  · subst hout
    simp [attrEntries]
  · subst hout
    intro p hp hemp
    simp only [attrEntries] at hp
    rcases List.mem_append.mp hp with h2 | h2
    · rcases p with ⟨name, w⟩
      exact shellAttrs_empty_is_value h2 hemp
    · obtain ⟨scans, nS, hs, hsf, hpl⟩ := walkKids_elim hw
      exact processRevList_attrs hsf hpl p h2 hemp

/- ------------------------------------------------------------------ -/
/- Claim theorems.                                                     -/
/- ------------------------------------------------------------------ -/

/-- C1 counterexample: in `cexSlotDoc` a `SPAN` element is assigned to a slot
of its host's shadow root.  The claim demands that it appear exactly once in
the output, under the slot; the extraction succeeds and the `SPAN` appears
zero times (the code drops any element whose `assignedSlot` is non-null and
never enters the shadow root that holds the slot). -/
theorem c1_counterexample :
    (extractTree cexSlotDoc).map (fun r => tagCount "SPAN" r.1) = .ok 0 ∧
    (extractTree cexSlotDoc).map (fun r => tagCount "SPAN" r.1) ≠ .ok 1 := by
  refine ⟨rfl, ?_⟩
  rw [show (extractTree cexSlotDoc).map (fun r => tagCount "SPAN" r.1) =
      (.ok 0 : Except String Nat) from rfl]
  simp

/-- C1 (amended): an element assigned to a slot is dropped entirely: every
tag in the output tree comes from the live region of the document, and a
slot-assigned element contributes nothing to the live region (so it appears
neither under its light-DOM parent nor under any slot, and is never
duplicated). -/
theorem c1_slot_skipped : ∀ (d : DomNode) (out : OutNode) (nf : Nat)
    (mutd : DomNode), extractTree d = .ok (out, nf, mutd) →
    (∀ t ∈ outTags out, t ∈ liveTags d) ∧
    (∀ tag attrs cls val shadow assigned kids,
      liveTags (DomNode.elem tag attrs cls val true shadow assigned kids) = []) := by
  intro d out nf mutd h
  refine ⟨(extract_outTags_subset h).1, ?_⟩
  intro tag attrs cls val shadow assigned kids
  by_cases hpr : isPruned tag attrs = true <;> simp [liveTags, hpr]

/-- C1 witness: `c1_slot_skipped` instantiated on the one-element body. -/
theorem c1_witness : "BODY" ∈ liveTags wBodyDoc :=
  (c1_slot_skipped wBodyDoc (OutNode.elem "BODY" [("mcp-id", "1")] none []) 1
    (DomNode.elem "BODY" [("mcp-id", "1")] DomClass.other none false none [] [])
    rfl).1 "BODY" (by decide)

/-- C2 counterexample: `cexShadowHost` has a shadow root containing a
paragraph.  The spec-claimed child sequence (own children, then shadow-root
children, then slot assignments) is non-empty for it, while the walker's
child sequence is empty; accordingly the extraction of `cexShadowDoc`
succeeds with no `P` element in the output. -/
theorem c2_counterexample :
    specChildSeq cexShadowHost ≠ kidsOf cexShadowHost ∧
    (extractTree cexShadowDoc).map (fun r => tagCount "P" r.1) = .ok 0 := by
  constructor
  · intro hc
    exact absurd (congrArg List.length hc) (by decide)
  · rfl

/-- C2 (amended): the Tree Walker recurses into the element's direct child
nodes only: erasing every shadow root and every slot-assignment list from the
document changes neither the extracted tree nor the final counter. -/
theorem c2_direct_children_only : ∀ (d : DomNode),
    (extractTree (eraseProj d)).map (fun r => (r.1, r.2.1)) =
      (extractTree d).map (fun r => (r.1, r.2.1)) := by
  intro d
  rw [extractTree_erase]
  rcases h : extractTree d with e | ⟨out, nf, mutd⟩ <;> rfl

/-- C3 counterexample: `cexIframeDoc` contains an `IFRAME` carrying
`aria-hidden="true"`.  The claim demands that any document containing an
IFRAME fail; here the IFRAME is pruned before the IFRAME check runs, the
extraction succeeds, and the tool call is not an error. -/
theorem c3_counterexample :
    "IFRAME" ∈ allTags cexIframeDoc ∧
    (handleExtractDom cexIframeDoc).isError = false ∧
    (extractTree cexIframeDoc).toOption.isSome = true := by
  exact ⟨by decide, rfl, rfl⟩

/-- C3 (amended): an IFRAME that the walker actually visits and keeps (one in
the live region) makes the call fail with the descriptive message and no
tree; and if no IFRAME occurs anywhere in the document, light DOM, shadow
roots and slot assignments included, the IFRAME error is never raised. -/
theorem c3_iframe_visited_fails :
    (∀ d : DomNode, "IFRAME" ∈ liveTags d →
      handleExtractDom d = ⟨"Failed to extract DOM: IFRAME not supported", true⟩) ∧
    (∀ d : DomNode, "IFRAME" ∉ allTags d →
      extractTree d ≠ .error "IFRAME not supported") := by
  constructor
  · intro d hif
    exact handleExtractDom_error (extract_iframe_live hif)
  · intro d hna hc
    exact hna (extract_error_iframe_mem hc)

/-- C3 witness: a visible IFRAME fails the call; the empty body never raises
the IFRAME error. -/
theorem c3_witness :
    handleExtractDom wIframeDoc =
      ⟨"Failed to extract DOM: IFRAME not supported", true⟩ ∧
    extractTree wBodyDoc ≠ .error "IFRAME not supported" :=
  ⟨c3_iframe_visited_fails.1 wIframeDoc (by decide),
   c3_iframe_visited_fails.2 wBodyDoc (by decide)⟩

/-- C4 counterexample: for `body > [div > span, p]` the explicit stack
processes the `p` frame before descending into `div`, so the recorded
identifiers in preorder are `1, 2, 4, 3`, which is not strictly increasing. -/
theorem c4_counterexample :
    (extractTree cexOrderDoc).map (fun r => preorderMcpIds r.1) =
      .ok ["1", "2", "4", "3"] ∧
    ¬ StrIncrIds ["1", "2", "4", "3"] := by
  refine ⟨rfl, ?_⟩
  rintro ⟨ks, hmap, hchain⟩
  match ks with
  | [] => simp at hmap
  | [a] => simp at hmap
  | [a, b] => simp at hmap
  | [a, b, c] => simp at hmap
  | a :: b :: c :: d :: rest =>
    simp only [List.map_cons, List.cons.injEq] at hmap
    obtain ⟨h1, h2, h3, h4, h5⟩ := hmap
    have ha : (1 : Nat) = a := decimalStr_inj (show decimalStr 1 = decimalStr a from h1)
    have hb : (2 : Nat) = b := decimalStr_inj (show decimalStr 2 = decimalStr b from h2)
    have hcq : (4 : Nat) = c := decimalStr_inj (show decimalStr 4 = decimalStr c from h3)
    have hd : (3 : Nat) = d := decimalStr_inj (show decimalStr 3 = decimalStr d from h4)
    have hrest : rest = [] := by
      cases rest with
      | nil => rfl
      | cons x xs => simp at h5
    subst hrest
    rw [← ha, ← hb, ← hcq, ← hd] at hchain
    simp only [List.chain'_cons] at hchain
    have h43 : (4 : Nat) < 3 := hchain.2.2.1
    omega

/-- C4 (amended): the Identifier Assigner returns `"1"` on its first call and
the decimal rendering of the next counter on each later call, no two calls
return the same value, and every identifier recorded on an output element is
the rendering of a distinct counter value between 1 and the final counter;
but the identifiers are assigned in the stack's processing order, which is
not preorder, so in preorder they need not be increasing (see the
counterexample). -/
theorem c4_ids_unique :
    ((uniqueIdNext 0).1 = "1" ∧
     (∀ n : Nat, (uniqueIdNext n).1 = decimalStr (n + 1)) ∧
     (∀ i j : Nat, i ≠ j → (uniqueIdNext i).1 ≠ (uniqueIdNext j).1)) ∧
    (∀ d out nf mutd, extractTree d = .ok (out, nf, mutd) →
      (∀ s ∈ preorderMcpIds out, ∃ k, 1 ≤ k ∧ k ≤ nf ∧ s = decimalStr k) ∧
      (preorderMcpIds out).Pairwise (· ≠ ·)) := by
  refine ⟨⟨rfl, fun n => rfl, ?_⟩, ?_⟩
  · intro i j hne hc
    have := decimalStr_inj hc
    omega
  · intro d out nf mutd h
    exact extract_ids h

/-- C4 witness: two distinct calls return distinct identifiers, and the
identifiers of the one-element body's output are pairwise distinct. -/
theorem c4_witness :
    (uniqueIdNext 0).1 ≠ (uniqueIdNext 1).1 ∧
    (preorderMcpIds (OutNode.elem "BODY" [("mcp-id", "1")] none [])).Pairwise
      (· ≠ ·) :=
  ⟨c4_ids_unique.1.2.2 0 1 (by decide),
   (c4_ids_unique.2 wBodyDoc (OutNode.elem "BODY" [("mcp-id", "1")] none []) 1
     (DomNode.elem "BODY" [("mcp-id", "1")] DomClass.other none false none [] [])
     rfl).2⟩

/-- C5 counterexample: an input whose `value` property is the empty string
produces the attribute entry `("value", "")`, whose value trims to the empty
string, in the extracted output. -/
theorem c5_counterexample :
    (extractTree cexEmptyValDoc).map (fun r => attrEntries r.1) =
      .ok [("mcp-id", "1"), ("value", ""), ("mcp-id", "2")] ∧
    ("value", "") ∈ [(("mcp-id" : String), ("1" : String)), ("value", ""),
      ("mcp-id", "2")] ∧
    jsTrim "" = "" := ⟨rfl, by decide, rfl⟩

/-- C5 (amended): in every extracted output, an attribute entry whose value
trims to the empty string can only be the synthetic `value` entry of an input
control, which is copied verbatim; every other entry has a non-empty trimmed
value. -/
theorem c5_attrs_nonempty : ∀ d out nf mutd,
    extractTree d = .ok (out, nf, mutd) →
    ∀ p ∈ attrEntries out, jsTrim p.2 = "" → p.1 = "value" := by
  intro d out nf mutd h
  exact extract_attrs h

/-- C5 witness: `c5_attrs_nonempty` applied to the empty-input document and
its `("value", "")` entry. -/
theorem c5_witness : (("value", "") : String × String).1 = "value" :=
  c5_attrs_nonempty cexEmptyValDoc
    (OutNode.elem "BODY" [("mcp-id", "1")] none
      [OutNode.elem "INPUT" [("value", ""), ("mcp-id", "2")] none []]) 2
    (DomNode.elem "BODY" [("mcp-id", "1")] DomClass.other none false none []
      [DomNode.elem "INPUT" [("mcp-id", "2")] DomClass.input
        (some (.str "")) false none [] []])
    rfl ("value", "") (by decide) rfl

/-- C6 counterexample: `<button class="button">`.  The claim says an
attribute other than `type` whose value is `button` is included; the code
elides ANY attribute whose trimmed value is `button` on a `BUTTON`, so the
`class` attribute is absent from the output. -/
theorem c6_counterexample :
    (extractTree cexButtonDoc).map (fun r => attrEntries r.1) =
      .ok [("mcp-id", "1"), ("mcp-id", "2")] ∧
    List.filter (fun p => p.1 == "class")
      [(("mcp-id" : String), ("1" : String)), ("mcp-id", "2")] = [] :=
  ⟨rfl, rfl⟩

/-- C6 (amended): for every kept element and every enumerated attribute with
raw value `raw`, the normalizer includes the pair exactly when the trimmed
value is non-empty, the attribute is not exactly `role="presentation"`, and
it is not the case that the tag is `BUTTON` and the TRIMMED VALUE is
`"button"` (regardless of the attribute's name); an included value is the
trimmed, whitespace-collapsed raw value.  The second conjunct ties the
normalizer to `cleanupDom`'s kept-element output. -/
theorem c6_normalizer :
    (∀ tag attrs name w, (name, w) ∈ normalizeAttrs tag attrs ↔
      name ∈ attrs.map Prod.fst ∧ ∃ raw, getAttr attrs name = some raw ∧
        jsTrim raw ≠ "" ∧ ¬(name = "role" ∧ jsTrim raw = "presentation") ∧
        ¬(tag = "BUTTON" ∧ jsTrim raw = "button") ∧
        w = jsTrim (collapseWs (jsTrim raw))) ∧
    (∀ tag attrs cls val sl shadow assigned kids n esh n1 m,
      cleanupDom (.elem tag attrs cls val sl shadow assigned kids) n =
        .ok (some (.elem esh), n1, m) →
      esh.attributes = cleanupValueAttrs cls val ++
        normalizeAttrs tag (setAttr attrs "mcp-id" (decimalStr (n + 1)))) := by
  constructor
  · intro tag attrs name w
    constructor
    · intro h
      obtain ⟨h1, h2⟩ := mem_normalizeAttrsGo.mp h
      exact ⟨h1, h2⟩
    · intro ⟨h1, h2⟩
      exact mem_normalizeAttrsGo.mpr ⟨h1, h2⟩
  · intro tag attrs cls val sl shadow assigned kids n esh n1 m h
    obtain ⟨_, _, hshl⟩ := cleanupDom_elem_inv h
    rcases hshl with ⟨h0, _⟩ | ⟨h0, _⟩
    · exact absurd h0 (by simp)
    · simp only [Option.some.injEq, Shell.elem.injEq] at h0
      rw [h0]

/-- C6 witness: `c6_normalizer` applied to the `<button class="button">`
element: its shell attributes are the normalized attributes, in which the
`class` attribute has been elided. -/
theorem c6_witness : (⟨"BUTTON", [("mcp-id", "2")], none⟩ : ElemShell).attributes =
    cleanupValueAttrs DomClass.button (some (.str "")) ++
      normalizeAttrs "BUTTON"
        (setAttr [("class", "button")] "mcp-id" (decimalStr 2)) :=
  c6_normalizer.2 "BUTTON" [("class", "button")] DomClass.button
    (some (.str "")) false none [] [] 1 ⟨"BUTTON", [("mcp-id", "2")], none⟩ 2
    (DomNode.elem "BUTTON" [("class", "button"), ("mcp-id", "2")]
      DomClass.button (some (.str "")) false none [] []) rfl

/-- C7 counterexample: an input whose value is `"  a  b "` stores that string
verbatim under the synthetic `value` attribute; the whitespace-normalized
form `"a b"` appears nowhere. -/
theorem c7_counterexample :
    (extractTree cexInputWsDoc).map (fun r => attrEntries r.1) =
      .ok [("mcp-id", "1"), ("value", "  a  b "), ("mcp-id", "2")] ∧
    ("value", "  a  b ") ∈ [(("mcp-id" : String), ("1" : String)),
      ("value", "  a  b "), ("mcp-id", "2")] ∧
    ("value", "a b") ∉ [(("mcp-id" : String), ("1" : String)),
      ("value", "  a  b "), ("mcp-id", "2")] :=
  ⟨rfl, by decide, by decide⟩

/-- C7 (amended): for every kept input control, the current value is placed
as the first attribute entry under the synthetic name `value`, copied
verbatim with NO whitespace normalization, and the node's `value` field is
left null. -/
theorem c7_input_value_raw :
    ∀ tag attrs s sl shadow assigned kids n esh n1 m,
      cleanupDom (DomNode.elem tag attrs DomClass.input (some (.str s)) sl
        shadow assigned kids) n = .ok (some (.elem esh), n1, m) →
      esh.attributes.head? = some ("value", s) ∧ esh.value = none := by
  intro tag attrs s sl shadow assigned kids n esh n1 m h
  obtain ⟨_, _, hshl⟩ := cleanupDom_elem_inv h
  rcases hshl with ⟨h0, _⟩ | ⟨h0, _⟩
  · exact absurd h0 (by simp)
  · simp only [Option.some.injEq, Shell.elem.injEq] at h0
    rw [h0]
    exact ⟨rfl, rfl⟩

/-- C7 witness: `c7_input_value_raw` applied to the input with value
`"  a  b "`: the first shell attribute holds the string verbatim. -/
theorem c7_witness :
    (⟨"INPUT", [("value", "  a  b "), ("mcp-id", "2")], none⟩ :
        ElemShell).attributes.head? = some ("value", "  a  b ") ∧
    (⟨"INPUT", [("value", "  a  b "), ("mcp-id", "2")], none⟩ :
        ElemShell).value = none :=
  c7_input_value_raw "INPUT" [] "  a  b " false none [] [] 1
    ⟨"INPUT", [("value", "  a  b "), ("mcp-id", "2")], none⟩ 2
    (DomNode.elem "INPUT" [("mcp-id", "2")] DomClass.input
      (some (.str "  a  b ")) false none [] []) rfl

/-- C8: a pruned element (noise tag, or `type="hidden"`, `disabled="true"`,
or `aria-hidden="true"`) contributes nothing to the live region, and the
extracted output only contains tags and (normalized) texts of the live
region, so the pruned subtree is fully absent from the output. -/
theorem c8_pruned_absent :
    (∀ d out nf mutd, extractTree d = .ok (out, nf, mutd) →
      (∀ t ∈ outTags out, t ∈ liveTags d) ∧
      (∀ s ∈ outTexts out, ∃ r ∈ liveTexts d, s = normalizeWs r)) ∧
    (∀ tag attrs cls val sl shadow assigned kids, isPruned tag attrs = true →
      liveTags (DomNode.elem tag attrs cls val sl shadow assigned kids) = [] ∧
      liveTexts (DomNode.elem tag attrs cls val sl shadow assigned kids) = []) := by
  constructor
  · intro d out nf mutd h
    exact extract_outTags_subset h
  · intro tag attrs cls val sl shadow assigned kids hpr
    exact ⟨by simp [liveTags, hpr], by simp [liveTexts, hpr]⟩

/-- C8 witness: `c8_pruned_absent` on the shadow-host document (its output
`DIV` comes from the live region) and on a bare `SCRIPT` element (its live
region is empty). -/
theorem c8_witness :
    "DIV" ∈ liveTags cexShadowDoc ∧
    liveTags (DomNode.elem "SCRIPT" [] DomClass.other none false none [] []) = [] :=
  ⟨(c8_pruned_absent.1 cexShadowDoc
      (OutNode.elem "BODY" [("mcp-id", "1")] none
        [OutNode.elem "DIV" [("mcp-id", "2")] none []]) 2
      (DomNode.elem "BODY" [("mcp-id", "1")] DomClass.other none false none []
        [DomNode.elem "DIV" [("mcp-id", "2")] DomClass.other none false
          (some [DomNode.elem "P" [] DomClass.other none false none []
            [DomNode.text "Shadow"]]) [] []])
      rfl).1 "DIV" (by decide),
   (c8_pruned_absent.2 "SCRIPT" [] DomClass.other none false none [] []
     (by decide)).1⟩

/-- C9: the identifier counter is advanced exactly once on every successful
non-text `cleanupDom` call, including calls whose node is then pruned or
skipped; text nodes leave it unchanged.  Consequently identifiers in the
output have gaps: in `gapDoc` the pruned `SCRIPT` consumes identifier `2`,
so the output identifiers are `1` and `3` with final counter `3`. -/
theorem c9_counter_gaps :
    ((∀ tag attrs cls val sl shadow assigned kids n r,
        cleanupDom (DomNode.elem tag attrs cls val sl shadow assigned kids) n =
          .ok r → r.2.1 = n + 1) ∧
     (∀ s n r, cleanupDom (DomNode.text s) n = .ok r → r.2.1 = n)) ∧
    (extractTree gapDoc).map (fun r => (preorderMcpIds r.1, r.2.1)) =
      .ok (["1", "3"], 3) := by
  refine ⟨⟨?_, ?_⟩, rfl⟩
  · intro tag attrs cls val sl shadow assigned kids n r h
    obtain ⟨shl, n1, m⟩ := r
    exact (cleanupDom_elem_inv h).1
  · intro s n r h
    obtain ⟨shl, n1, m⟩ := r
    exact (cleanupDom_text_inv h).1

/-- C9 witness: `c9_counter_gaps` applied to a concrete element call at
counter `0` (result counter `1`) and a concrete text call at counter `5`
(counter unchanged). -/
theorem c9_witness :
    ((some (Shell.elem ⟨"DIV", [("mcp-id", "1")], none⟩), 1,
        DomNode.elem "DIV" [("mcp-id", "1")] DomClass.other none false none [] []) :
      Option Shell × Nat × DomNode).2.1 = 0 + 1 ∧
    ((some (Shell.text "hi"), 5, DomNode.text "hi") :
      Option Shell × Nat × DomNode).2.1 = 5 :=
  ⟨c9_counter_gaps.1.1 "DIV" [] DomClass.other none false none [] [] 0
      (some (Shell.elem ⟨"DIV", [("mcp-id", "1")], none⟩), 1,
        DomNode.elem "DIV" [("mcp-id", "1")] DomClass.other none false none [] [])
      rfl,
   c9_counter_gaps.1.2 "hi" 5 (some (Shell.text "hi"), 5, DomNode.text "hi") rfl⟩

/-- C10: every successful non-text `cleanupDom` call rewrites the node's
attribute list by writing `mcp-id` with the decimal rendering of the advanced
counter, and changes nothing else of the node; text nodes are returned
untouched; a whole successful extraction relates the input document to the
mutated document by `MarkedOnly`, which permits exactly the `mcp-id`
attribute writes and no other change. -/
theorem c10_mcp_id_marking :
    ((∀ tag attrs cls val sl shadow assigned kids n shl n1 m,
        cleanupDom (DomNode.elem tag attrs cls val sl shadow assigned kids) n =
          .ok (shl, n1, m) →
        m = DomNode.elem tag (setAttr attrs "mcp-id" (decimalStr (n + 1))) cls
          val sl shadow assigned kids) ∧
     (∀ s n shl n1 m, cleanupDom (DomNode.text s) n = .ok (shl, n1, m) →
        m = DomNode.text s)) ∧
    (∀ d out nf mutd, extractTree d = .ok (out, nf, mutd) → MarkedOnly d mutd) := by
  refine ⟨⟨?_, ?_⟩, ?_⟩
  · intro tag attrs cls val sl shadow assigned kids n shl n1 m h
    exact (cleanupDom_elem_inv h).2.1
  · intro s n shl n1 m h
    exact (cleanupDom_text_inv h).2.1
  · intro d out nf mutd h
    exact extract_marked h

/-- C10 witness: `c10_mcp_id_marking` applied to the one-element body: the
mutated document differs from the input only by the `mcp-id` write. -/
theorem c10_witness :
    MarkedOnly wBodyDoc
      (DomNode.elem "BODY" [("mcp-id", "1")] DomClass.other none false none [] []) :=
  c10_mcp_id_marking.2 wBodyDoc (OutNode.elem "BODY" [("mcp-id", "1")] none []) 1
    (DomNode.elem "BODY" [("mcp-id", "1")] DomClass.other none false none [] [])
    rfl

end MCPDom
